import Mathlib

/-!
Verification of the budget-automation document-ingestion and matching core.

The TypeScript sources are shallowly embedded: JS strings are modelled as
`List Char`, JS `number` as `ℚ` (all arithmetic performed by the code on the
modelled paths is exact decimal arithmetic), nullable values as `Option`,
and SQLite tables as Lean lists of row structures.  JS built-ins
(`toLowerCase`, `trim`, `parseFloat`, regex replaces with concrete patterns)
are modelled on the character ranges that occur in the program's data
(ASCII and Cyrillic).
-/

namespace Budget

/-- A JS string, modelled as a list of characters. -/
abbrev Str := List Char

/-- Coerce a Lean string literal to the model type. -/
def str (s : String) : Str := s.toList

/-- JS `String.prototype.toLowerCase`, modelled on the alphabets the program
uses: ASCII `A`–`Z`, Cyrillic `А`–`Я` (U+0410–U+042F) and `Ё` (U+0401).
All other characters are left unchanged. -/
def jsToLower (c : Char) : Char :=
  if 0x41 ≤ c.toNat ∧ c.toNat ≤ 0x5A then Char.ofNat (c.toNat + 0x20)
  else if 0x410 ≤ c.toNat ∧ c.toNat ≤ 0x42F then Char.ofNat (c.toNat + 0x20)
  else if c.toNat = 0x401 then Char.ofNat 0x451
  else c

/-- Lowercase a whole string (JS `s.toLowerCase()`). -/
def lowerStr (s : Str) : Str := s.map jsToLower

/-- The whitespace class used by JS `\s` / `trim`, restricted to the
whitespace characters occurring in the documents: space, tab, LF, CR. -/
def isJsSpace (c : Char) : Bool :=
  c = ' ' || c = '\t' || c = '\n' || c = '\r'

/-- JS `String.prototype.trim`. -/
def jsTrim (s : Str) : Str :=
  ((s.dropWhile isJsSpace).reverse.dropWhile isJsSpace).reverse

/-- JS digit test (`[0-9]`). -/
def isDigitCh (c : Char) : Bool := '0' ≤ c && c ≤ '9'

/-- Numeric value of a decimal digit character. -/
def digitVal (c : Char) : ℕ := c.toNat - 48

/-- Value of a list of decimal digit characters. -/
def digitsVal (l : Str) : ℕ := l.foldl (fun a c => 10 * a + digitVal c) 0

/-- JS `parseFloat`, modelled for plain decimal notation
(optional sign, integer digits, optional fraction), which is the only form
the cleaned price strings can take; exponent notation and `Infinity` are not
modelled.  Returns `none` where `parseFloat` returns `NaN`. -/
def parseFloatQ (s : Str) : Option ℚ :=
  let (sign, rest) :=
    match s with
    | '-' :: r => ((-1 : ℚ), r)
    | '+' :: r => ((1 : ℚ), r)
    | r => ((1 : ℚ), r)
  let intPart := rest.takeWhile isDigitCh
  let rest2 := rest.dropWhile isDigitCh
  let fracPart :=
    match rest2 with
    | '.' :: r => r.takeWhile isDigitCh
    | _ => []
  if intPart = [] ∧ fracPart = [] then none
  else
    some (sign * ((digitsVal intPart : ℚ) +
      (digitsVal fracPart : ℚ) / ((10 : ℚ) ^ fracPart.length)))

/-- One pass of the global, case-insensitive replace `/руб\.?/gi → ""`:
removes every (non-overlapping, left-to-right) occurrence of `руб`,
together with one optional following dot. -/
def stripRub : Str → Str
  | c :: c2 :: c3 :: '.' :: rest3 =>
    if jsToLower c = 'р' ∧ jsToLower c2 = 'у' ∧ jsToLower c3 = 'б' then
      stripRub rest3
    else c :: stripRub (c2 :: c3 :: '.' :: rest3)
  | c :: c2 :: c3 :: rest2 =>
    if jsToLower c = 'р' ∧ jsToLower c2 = 'у' ∧ jsToLower c3 = 'б' then
      stripRub rest2
    else c :: stripRub (c2 :: c3 :: rest2)
  | c :: rest => c :: stripRub rest
  | [] => []

/-- The anchored, case-insensitive replace `/р\.?$/i → ""`: removes a
trailing `р.` or `р`. -/
def stripTrailingR (s : Str) : Str :=
  let r := s.reverse
  match r with
  | '.' :: c :: rest => if jsToLower c = 'р' then rest.reverse else s
  | c :: rest => if jsToLower c = 'р' then rest.reverse else s
  | [] => s

/-- JS `s.replace(',', '.')` — replaces only the first comma. -/
def replaceFirstComma : Str → Str
  | [] => []
  | c :: rest => if c = ',' then '.' :: rest else c :: replaceFirstComma rest

/-- `parsePrice` from `src/backend/src/services/pdfParser.ts` (lines 30–42):
strips all whitespace, removes `руб`/`руб.` and `₽`, removes a trailing
`р`/`р.`, converts the first comma to a dot and applies `parseFloat`;
`none` stands for the JS `null` result. -/
def parsePrice (value : Str) : Option ℚ :=
  if value = [] then none
  else
    let cleaned := value.filter (fun c => !isJsSpace c)
    let cleaned := stripRub cleaned
    let cleaned := cleaned.filter (fun c => c ≠ '₽')
    let cleaned := stripTrailingR cleaned
    let cleaned := replaceFirstComma cleaned
    let cleaned := jsTrim cleaned
    if cleaned = [] then none
    else parseFloatQ cleaned

/-! ### Text normalizer (`normalizeForMatching`, matcher service lines 40–62) -/

/-- The matcher's stop-word set (`STOP_WORDS`, matcher service lines 41–45). -/
def STOP_WORDS : List Str :=
  [str "мм", str "см", str "м", str "шт", str "кг", str "г", str "л",
   str "мл", str "компл", str "комплект", str "набор", str "ед", str "пог",
   str "кв", str "куб", str "п", str "к", str "и", str "в", str "с",
   str "на", str "для", str "из", str "по", str "от", str "до"]

/-- Membership in the Unicode letter class `\p{L}`, modelled on the
alphabets the documents use: ASCII letters and the Cyrillic block
U+0400–U+04FF. -/
def isJsLetter (c : Char) : Bool :=
  ('a' ≤ c && c ≤ 'z') || ('A' ≤ c && c ≤ 'Z') ||
    (0x400 ≤ c.toNat && c.toNat ≤ 0x4FF)

/-- A character kept by the regex class `[\p{L}\p{N}]` (letters/digits). -/
def isWordChar (c : Char) : Bool := isJsLetter c || isDigitCh c

/-- The replace `/[^\p{L}\p{N}\s]/gu → " "`: every character that is not a
letter, digit or whitespace becomes a space. -/
def replacePunct (s : Str) : Str :=
  s.map fun c => if isWordChar c || isJsSpace c then c else ' '

/-- The replace `/\s+/g → " "`: each maximal run of whitespace becomes a
single space. -/
def collapseWs : Str → Str
  | [] => []
  | c :: rest =>
    let t := collapseWs rest
    if isJsSpace c then
      match t with
      | d :: t2 => if d = ' ' then ' ' :: t2 else ' ' :: d :: t2
      | [] => [' ']
    else c :: t

/-- JS `s.split(' ')`. -/
def splitSp : Str → List Str
  | [] => [[]]
  | c :: rest =>
    match splitSp rest with
    | [] => []
    | w :: ws => if c = ' ' then [] :: w :: ws else (c :: w) :: ws

/-- JS `words.join(' ')`. -/
def joinSp : List Str → Str
  | [] => []
  | [w] => w
  | w :: ws => w ++ ' ' :: joinSp ws

/-- The word list `normalizeForMatching` keeps (matcher service lines
54–60): lowercase and trim, replace punctuation by spaces, collapse
whitespace, split on spaces, drop empty and stop-word tokens. -/
def normWords (text : Str) : List Str :=
  let s := jsTrim (lowerStr text)
  let s := replacePunct s
  let s := jsTrim (collapseWs s)
  (splitSp s).filter fun w => !w.isEmpty && !STOP_WORDS.contains w

/-- `normalizeForMatching` from the matcher service (lines 53–62):
the kept words re-joined with single spaces. -/
def normalizeForMatching (text : Str) : Str :=
  joinSp (normWords text)

/-! ### String similarity (Dice coefficient)

`compareTwoStrings` is modelled from the `string-similarity` npm library the
matcher imports: strip all whitespace, return 1 for identical strings, 0 if
either is shorter than 2 characters, else the bigram Dice coefficient with
multiset bigram intersection. -/

/-- The list of bigrams of a string. -/
def bigrams (l : Str) : List (Char × Char) := l.zip l.tail

/-- Multiset intersection count of bigram lists: each bigram of the second
list that is still available in the first consumes one occurrence. -/
def interCount : List (Char × Char) → List (Char × Char) → ℕ
  | _, [] => 0
  | fb, b :: rest =>
    if b ∈ fb then 1 + interCount (fb.erase b) rest else interCount fb rest

/-- `compareTwoStrings` (Dice coefficient) from the `string-similarity`
library. -/
def compareTwoStrings (a b : Str) : ℚ :=
  let f := a.filter fun c => !isJsSpace c
  let s := b.filter fun c => !isJsSpace c
  if f = s then 1
  else if f.length < 2 ∨ s.length < 2 then 0
  else ((2 * interCount (bigrams f) (bigrams s) : ℕ) : ℚ) /
    ((f.length + s.length - 2 : ℕ) : ℚ)

/-! ### Matching engine (`runMatching`, matcher service lines 64–194) -/

/-- `matchType` values of a candidate. -/
inductive MatchType where
  | exact_article
  | learned_rule
  | name_similarity
  | name_characteristics
deriving DecidableEq, Repr

/-- A `specification_items` row as loaded by the matcher. -/
structure SpecItemRow where
  id : ℕ
  name : Str
  characteristics : Option Str
  equipment_code : Option Str
  unit : Option Str
  quantity : Option ℚ
  sectionName : Option Str
deriving DecidableEq, Repr

/-- An `invoice_items` row as loaded by the matcher. -/
structure InvoiceItemRow where
  id : ℕ
  invoice_id : ℕ
  article : Option Str
  name : Str
  unit : Option Str
  quantity : Option ℚ
  price : Option ℚ
  amount : Option ℚ
deriving DecidableEq, Repr

/-- A `matching_rules` row. -/
structure MatchingRuleRow where
  id : ℕ
  specification_pattern : Str
  invoice_pattern : Str
  confidence : ℚ
  times_used : ℕ
deriving DecidableEq, Repr

/-- A produced match candidate. -/
structure MatchCandidate where
  specItemId : ℕ
  invoiceItemId : ℕ
  confidence : ℚ
  matchType : MatchType
deriving DecidableEq, Repr

/-- JS truthiness of a nullable string: neither `null` nor `""`. -/
def optTruthy (o : Option Str) : Bool :=
  match o with
  | some s => !s.isEmpty
  | none => false

/-- `Math.round(x * 1000) / 1000` (JS `Math.round` rounds half toward
positive infinity). -/
def round3 (x : ℚ) : ℚ := ((⌊x * 1000 + 1/2⌋ : ℤ) : ℚ) / 1000

/-- `spec.equipment_code?.trim() || null` (line 113). -/
def specCodeOf (spec : SpecItemRow) : Option Str :=
  match spec.equipment_code with
  | none => none
  | some s => let t := jsTrim s; if t.isEmpty then none else some t

/-- The unit-bonus test
`spec.unit && inv.unit && spec.unit.toLowerCase().trim() === inv.unit.toLowerCase().trim()`. -/
def unitsMatch (su iu : Option Str) : Bool :=
  match su, iu with
  | some u1, some u2 =>
    !u1.isEmpty && !u2.isEmpty && jsTrim (lowerStr u1) == jsTrim (lowerStr u2)
  | _, _ => false

/-- A rule together with its pre-normalized patterns (lines 100–104). -/
structure NormRule where
  rule : MatchingRuleRow
  normalizedSpec : Str
  normalizedInvoice : Str
deriving DecidableEq, Repr

/-- Tier 1, exact article match (lines 121–128). -/
def tier1 (specCode : Option Str) (article : Option Str) : ℚ × MatchType :=
  match specCode, article with
  | some code, some art =>
    if !art.isEmpty then
      let invArticle := jsTrim art
      if lowerStr code = lowerStr invArticle ∧ 0 < code.length then
        (0.95, .exact_article)
      else (0, .name_similarity)
    else (0, .name_similarity)
  | _, _ => (0, .name_similarity)

/-- One iteration of the learned-rule loop (lines 132–142). -/
def ruleStep (specNormName invNormName : Str) (b : ℚ × MatchType)
    (r : NormRule) : ℚ × MatchType :=
  let specMatch := compareTwoStrings specNormName r.normalizedSpec
  let invMatch := compareTwoStrings invNormName r.normalizedInvoice
  if specMatch ≥ 0.8 ∧ invMatch ≥ 0.8 then
    let ruleConfidence := min r.rule.confidence 0.95
    if b.1 < ruleConfidence then (ruleConfidence, .learned_rule) else b
  else b

/-- Tier 2, the learned-rule loop with its `bestConfidence < 0.95` guard
(lines 131–143). -/
def tier2Step (specNormName invNormName : Str) (normRules : List NormRule)
    (b : ℚ × MatchType) : ℚ × MatchType :=
  if b.1 < 0.95 then normRules.foldl (ruleStep specNormName invNormName) b
  else b

/-- Tier 3, name similarity with unit bonus and 0.94 cap (lines 146–160). -/
def tier3Step (specNormName : Str) (specUnit : Option Str)
    (invUnit : Option Str) (invNormName : Str)
    (b : ℚ × MatchType) : ℚ × MatchType :=
  if b.1 < 0.95 then
    let nameSim := compareTwoStrings specNormName invNormName
    if nameSim ≥ 0.6 then
      let conf := nameSim * 0.9 +
        (if unitsMatch specUnit invUnit then 0.05 else 0)
      let conf := min conf 0.94
      if b.1 < conf then (conf, .name_similarity) else b
    else b
  else b

/-- Tier 4, name+characteristics similarity with unit bonus and 0.94 cap
(lines 163–176). -/
def tier4Step (specNormFull : Str) (specUnit : Option Str)
    (specChar : Option Str) (invUnit : Option Str) (invNormName : Str)
    (b : ℚ × MatchType) : ℚ × MatchType :=
  if b.1 < 0.95 ∧ optTruthy specChar then
    let fullSim := compareTwoStrings specNormFull invNormName
    if fullSim ≥ 0.5 then
      let conf := fullSim * 0.8 +
        (if unitsMatch specUnit invUnit then 0.05 else 0)
      let conf := min conf 0.94
      if b.1 < conf then (conf, .name_characteristics) else b
    else b
  else b

/-- The four-tier confidence computation for one (spec, invoice) pair
(lines 118–176). -/
def scorePair (specNormName specNormFull : Str) (specCode : Option Str)
    (specUnit : Option Str) (specChar : Option Str)
    (inv : InvoiceItemRow) (invNormName : Str)
    (normRules : List NormRule) : ℚ × MatchType :=
  tier4Step specNormFull specUnit specChar inv.unit invNormName
    (tier3Step specNormName specUnit inv.unit invNormName
      (tier2Step specNormName invNormName normRules
        (tier1 specCode inv.article)))

/-- The score of one (spec item, invoice item) pair, with the spec item's
normalized name, normalized name+characteristics (lines 109–113) and
trimmed code in place. -/
def specScore (spec : SpecItemRow) (p : InvoiceItemRow × Str)
    (normRules : List NormRule) : ℚ × MatchType :=
  scorePair (normalizeForMatching spec.name)
    (if optTruthy spec.characteristics then
      normalizeForMatching (spec.name ++ ' ' :: spec.characteristics.getD [])
    else normalizeForMatching spec.name)
    (specCodeOf spec) spec.unit spec.characteristics p.1 p.2 normRules

/-- The candidate list one spec item accumulates over all invoice items, in
evaluation order (lines 115–186). -/
def candidatesFor (spec : SpecItemRow)
    (normalizedInvoice : List (InvoiceItemRow × Str))
    (normRules : List NormRule) : List MatchCandidate :=
  normalizedInvoice.filterMap fun p =>
    let best := specScore spec p normRules
    if best.1 ≥ 0.4 then
      some ⟨spec.id, p.1.id, round3 best.1, best.2⟩
    else none

/-- Stable descending insertion: the new element goes after every element of
strictly greater confidence and before the first element of confidence `≤`
its own.  `sortDesc` folds this over the list from the right, so the
earliest-evaluated candidate is inserted last and lands in front of its
equal-confidence peers: ties keep evaluation order, matching the stable JS
`sort((a, b) => b.confidence - a.confidence)`. -/
def insertDesc (c : MatchCandidate) : List MatchCandidate → List MatchCandidate
  | [] => [c]
  | d :: rest =>
    if c.confidence < d.confidence then d :: insertDesc c rest else c :: d :: rest

/-- Stable sort by confidence descending (line 189). -/
def sortDesc (l : List MatchCandidate) : List MatchCandidate :=
  l.foldr insertDesc []

/-- The pre-normalized invoice items (matcher service lines 94–97). -/
def normInvoice (invoiceItems : List InvoiceItemRow) :
    List (InvoiceItemRow × Str) :=
  invoiceItems.map fun item => (item, normalizeForMatching item.name)

/-- The pre-normalized rules (matcher service lines 100–104). -/
def normRulesOf (rules : List MatchingRuleRow) : List NormRule :=
  rules.map fun rule =>
    { rule := rule
      normalizedSpec := normalizeForMatching rule.specification_pattern
      normalizedInvoice := normalizeForMatching rule.invoice_pattern }

/-- `runMatching` (matcher service lines 68–194), as a pure function of the
rows the route loads from the database. -/
def runMatching (specItems : List SpecItemRow)
    (invoiceItems : List InvoiceItemRow)
    (rules : List MatchingRuleRow) : List MatchCandidate :=
  if specItems.isEmpty || invoiceItems.isEmpty then []
  else
    (specItems.map fun spec =>
      (sortDesc (candidatesFor spec (normInvoice invoiceItems)
        (normRulesOf rules))).take 3).flatten

/-! ### Header/column detector (`detectColumns`, pdfParser.ts lines 44–84) -/

/-- `ColumnMapping` (pdfParser.ts lines 7–14): logical field → column index
or `null`. -/
structure ColumnMapping where
  article : Option ℕ
  name : Option ℕ
  unit : Option ℕ
  quantity : Option ℕ
  price : Option ℕ
  amount : Option ℕ
deriving DecidableEq, Repr

/-- Substring test, JS `s.includes(sub)`. -/
def containsSub (s sub : Str) : Bool :=
  match s with
  | [] => sub.isEmpty
  | _ :: rest => sub.isPrefixOf s || containsSub rest sub

/-- `normalizeText` (pdfParser.ts lines 25–28) applied to a cell that is
already a string: lowercase and trim. -/
def normalizeTextCell (cell : Str) : Str := jsTrim (lowerStr cell)

/-- `COLUMN_KEYWORDS` (pdfParser.ts lines 16–23), in object insertion order:
article, name, quantity, price, amount, unit. -/
def KW_article : List Str :=
  [str "артикул", str "article", str "код", str "арт.", str "арт",
   str "код товара", str "каталожный номер", str "номенклатурный номер"]

def KW_name : List Str :=
  [str "наименование", str "товар", str "название", str "описание",
   str "номенклатура", str "товар/услуга", str "материал", str "продукция",
   str "товары"]

def KW_quantity : List Str :=
  [str "количество", str "кол-во", str "qty", str "кол.", str "кол"]

def KW_price : List Str :=
  [str "цена", str "price", str "цена за ед", str "цена с ндс",
   str "цена с учетом ндс", str "стоимость за ед", str "цена за единицу"]

def KW_amount : List Str :=
  [str "сумма", str "total", str "стоимость", str "итого", str "сумма с ндс",
   str "всего с ндс", str "сумма с учётом ндс"]

def KW_unit : List Str :=
  [str "ед.", str "unit", str "ед. изм", str "единица", str "изм",
   str "ед. измерения", str "ед.изм.", str "ед.изм"]

/-- Whether some keyword of the list occurs in the cell text (the inner
keyword loop with its `break`). -/
def matchesAny (cellText : Str) (keywords : List Str) : Bool :=
  keywords.any fun kw => containsSub cellText (lowerStr kw)

/-- Assign one field for one cell: a field already set is never overwritten
(`if (mapping[key] !== null) continue`). -/
def applyField (cellText : Str) (col : ℕ) (cur : Option ℕ) (kws : List Str)
    (cnt : ℕ) : Option ℕ × ℕ :=
  match cur with
  | some c => (some c, cnt)
  | none => if matchesAny cellText kws then (some col, cnt + 1) else (none, cnt)

/-- Process one cell of a candidate header row over all six fields, in
`Object.entries` order (pdfParser.ts lines 59–75). -/
def applyCell (m : ColumnMapping) (cnt : ℕ) (cell : Str) (col : ℕ) :
    ColumnMapping × ℕ :=
  let cellText := normalizeTextCell cell
  if cellText.isEmpty then (m, cnt)
  else
    let pa := applyField cellText col m.article KW_article cnt
    let pn := applyField cellText col m.name KW_name pa.2
    let pq := applyField cellText col m.quantity KW_quantity pn.2
    let pp := applyField cellText col m.price KW_price pq.2
    let pm := applyField cellText col m.amount KW_amount pp.2
    let pu := applyField cellText col m.unit KW_unit pm.2
    (⟨pa.1, pn.1, pu.1, pq.1, pp.1, pm.1⟩, pu.2)

/-- The all-`null` mapping a candidate row starts from. -/
def emptyMapping : ColumnMapping := ⟨none, none, none, none, none, none⟩

/-- Scan the cells of one row, columns numbered from `col`. -/
def detectRowAux (m : ColumnMapping) (cnt : ℕ) (col : ℕ) :
    List Str → ColumnMapping × ℕ
  | [] => (m, cnt)
  | cell :: rest =>
    let p := applyCell m cnt cell col
    detectRowAux p.1 p.2 (col + 1) rest

/-- The mapping and match count a candidate header row produces. -/
def detectRow (row : List Str) : ColumnMapping × ℕ :=
  detectRowAux emptyMapping 0 0 row

/-- Number of fields a mapping has assigned. -/
def countSet (m : ColumnMapping) : ℕ :=
  (if m.article.isSome then 1 else 0) + (if m.name.isSome then 1 else 0) +
  (if m.unit.isSome then 1 else 0) + (if m.quantity.isSome then 1 else 0) +
  (if m.price.isSome then 1 else 0) + (if m.amount.isSome then 1 else 0)

/-- The header-row qualification test (pdfParser.ts line 78):
`mapping.name !== null && matchCount >= 2`. -/
def rowQualifies (row : List Str) : Bool :=
  (detectRow row).1.name.isSome && 2 ≤ (detectRow row).2

/-- Result of `detectColumns`. -/
structure DetectResult where
  mapping : ColumnMapping
  headerRowIndex : ℕ
deriving DecidableEq, Repr

/-- The scanning loop of `detectColumns`, rows numbered from `i`. -/
def detectLoop : ℕ → List (List Str) → Option DetectResult
  | _, [] => none
  | i, row :: rest =>
    let p := detectRow row
    if p.1.name.isSome ∧ 2 ≤ p.2 then some ⟨p.1, i⟩ else detectLoop (i + 1) rest

/-- `detectColumns` (pdfParser.ts lines 44–84): scan at most the first 10
rows, return the first qualifying row's mapping and index, else `null`. -/
def detectColumns (rows : List (List Str)) : Option DetectResult :=
  detectLoop 0 (rows.take 10)

/-! ### Table row parser (`parseTableData`, pdfParser.ts lines 86–129) -/

/-- An `InvoiceRow` produced by the table parser. -/
structure InvoiceRow where
  article : Option Str
  name : Str
  unit : Option Str
  quantity : Option ℚ
  price : Option ℚ
  amount : Option ℚ
  row_index : ℕ
deriving DecidableEq, Repr

/-- `row[idx] || ''` for a nullable column index. -/
def cellAt (row : List Str) (idx : Option ℕ) : Str :=
  match idx with
  | some i => row.getD i []
  | none => []

/-- A text field: `mapping.f !== null ? (row[mapping.f] || '').trim() || null : null`. -/
def textField (row : List Str) (idx : Option ℕ) : Option Str :=
  match idx with
  | none => none
  | some i =>
    let t := jsTrim (row.getD i [])
    if t.isEmpty then none else some t

/-- A numeric field: `mapping.f !== null ? parsePrice(row[mapping.f]) : null`. -/
def numField (row : List Str) (idx : Option ℕ) : Option ℚ :=
  match idx with
  | none => none
  | some i => parsePrice (row.getD i [])

/-- `row.some(cell => cell && cell.trim())` (pdfParser.ts line 95). -/
def hasData (row : List Str) : Bool :=
  row.any fun cell => !(jsTrim cell).isEmpty

/-- The warning appended for a row with no name, citing the 1-based row
number (pdfParser.ts line 101). -/
def warnMsg (n : ℕ) : Str :=
  str "Строка " ++ (toString n).toList ++
    str ": пропущена — отсутствует наименование"

/-- The subtotal test (pdfParser.ts line 107) on the lowercased name. -/
def subtotalName (nameLower : Str) : Bool :=
  (str "итого").isPrefixOf nameLower || (str "всего").isPrefixOf nameLower ||
    nameLower == str "total"

/-- What the parser does with one row: silent skip, warning skip, or a
produced item (pdfParser.ts lines 91–126, one loop iteration, `i` 0-based). -/
inductive RowAction where
  | skipRow
  | warnRow (msg : Str)
  | keepRow (item : InvoiceRow)
deriving DecidableEq, Repr

/-- One iteration of the `parseTableData` loop. -/
def rowAction (mapping : ColumnMapping) (i : ℕ) (row : List Str) : RowAction :=
  if !hasData row then .skipRow
  else
    let name := jsTrim (cellAt row mapping.name)
    if name.isEmpty then .warnRow (warnMsg (i + 1))
    else if subtotalName (lowerStr name) then .skipRow
    else .keepRow
      { article := textField row mapping.article
        name := name
        unit := textField row mapping.unit
        quantity := numField row mapping.quantity
        price := numField row mapping.price
        amount := numField row mapping.amount
        row_index := i }

/-- Result record of `parseTableData`. -/
structure ParseTableResult where
  items : List InvoiceRow
  errors : List Str
  skipped : ℕ
deriving DecidableEq, Repr

/-- The row loop of `parseTableData`, rows numbered from `i`. -/
def parseRows (mapping : ColumnMapping) : ℕ → List (List Str) → ParseTableResult
  | _, [] => ⟨[], [], 0⟩
  | i, row :: rest =>
    let r := parseRows mapping (i + 1) rest
    match rowAction mapping i row with
    | .skipRow => r
    | .warnRow m => ⟨r.items, m :: r.errors, r.skipped + 1⟩
    | .keepRow it => ⟨it :: r.items, r.errors, r.skipped⟩

/-- `parseTableData` (pdfParser.ts lines 86–129). -/
def parseTableData (rows : List (List Str)) (mapping : ColumnMapping)
    (startRow : ℕ) : ParseTableResult :=
  parseRows mapping startRow (rows.drop startRow)

/-! ### Matching routes over the SQLite store
(`src/backend/src/routes/matching.ts`, extended router in the unnamed
sources).  The store is modelled as lists of rows; SQLite's
`ORDER BY confidence DESC LIMIT 1` tie-break, which SQLite leaves
unspecified, is modelled as the first row (lowest position) among those of
maximal confidence. -/

/-- A `specification_items` row with its owning project. -/
structure SpecItemDbRow where
  projectId : ℕ
  row : SpecItemRow
deriving DecidableEq, Repr

/-- An `invoice_items` row with its project and supplier (through the
`invoices` join). -/
structure InvoiceItemDbRow where
  projectId : ℕ
  supplierId : Option ℕ
  row : InvoiceItemRow
deriving DecidableEq, Repr

/-- A `matched_items` row. -/
structure MatchedRow where
  id : ℕ
  specification_item_id : ℕ
  invoice_item_id : ℕ
  confidence : ℚ
  match_type : Str
  is_confirmed : Bool
  is_selected : Bool
deriving DecidableEq, Repr

/-- A `matching_rules` row (the full table, including supplier scope). -/
structure DbRuleRow where
  id : ℕ
  specification_pattern : Str
  invoice_pattern : Str
  confidence : ℚ
  times_used : ℕ
  supplier_id : Option ℕ
deriving DecidableEq, Repr

/-- The mutable store the matching routes touch.  `nextMatchedId` /
`nextRuleId` model SQLite's monotone rowid allocation. -/
structure DBState where
  specItems : List SpecItemDbRow
  invoiceItems : List InvoiceItemDbRow
  matchedItems : List MatchedRow
  rules : List DbRuleRow
  nextMatchedId : ℕ
  nextRuleId : ℕ
deriving DecidableEq, Repr

/-- The string stored in the `match_type` column. -/
def matchTypeStr : MatchType → Str
  | .exact_article => str "exact_article"
  | .learned_rule => str "learned_rule"
  | .name_similarity => str "name_similarity"
  | .name_characteristics => str "name_characteristics"

/-- The confirmation kind: `PUT /confirm` is `exact`,
`POST /confirm-analog` is `analog`. -/
inductive ConfirmKind where
  | exact
  | analog
deriving DecidableEq, Repr

/-- The rule-lookup predicate of the confirm routes: equality on the
normalized pattern pair (no supplier filter). -/
def rulePatternsMatch (specName invoiceName : Str) (r : DbRuleRow) : Bool :=
  r.specification_pattern == normalizeForMatching specName &&
  r.invoice_pattern == normalizeForMatching invoiceName

/-- The updated confidence of an existing rule:
`MIN(1.0, confidence + 0.02)` for an `exact` confirmation, unchanged for an
`analog` one. -/
def confirmedConfidence (kind : ConfirmKind) (c : ℚ) : ℚ :=
  match kind with
  | .exact => min 1 (c + 0.02)
  | .analog => c

/-- The initial confidence of a freshly inserted rule. -/
def initialConfidence (kind : ConfirmKind) : ℚ :=
  match kind with
  | .exact => 0.9
  | .analog => 0.75

/-- The create-or-update of a `matching_rules` row shared by the two confirm
routes (matching.ts lines 197–213 and 279–297): look up by the normalized
pattern pair (no supplier filter in these routes); on hit increment
`times_used` and, for `exact` only, set `confidence = MIN(1.0, confidence + 0.02)`;
on miss insert `(0.9, 1)` for `exact` or `(0.75, 1)` for `analog`. -/
def confirmRuleUpdate (kind : ConfirmKind) (specName invoiceName : Str)
    (rules : List DbRuleRow) (nextId : ℕ) : List DbRuleRow × ℕ :=
  match rules.find? (rulePatternsMatch specName invoiceName) with
  | some r =>
    (rules.map fun x =>
      if x.id = r.id then
        { x with
          times_used := x.times_used + 1
          confidence := confirmedConfidence kind x.confidence }
      else x, nextId)
  | none =>
    (rules ++ [{ id := nextId
                 specification_pattern := normalizeForMatching specName
                 invoice_pattern := normalizeForMatching invoiceName
                 confidence := initialConfidence kind
                 times_used := 1
                 supplier_id := none }], nextId + 1)

/-- The two confirm routes (matching.ts lines 165–223 and 247–307): look up
the match and its joined names; deselect every match of the spec item;
confirm and select the match; create or update the learned rule.  A failed
lookup is the 404 path and leaves the store unchanged. -/
def confirmMatch (kind : ConfirmKind) (matchId : ℕ) (st : DBState) : DBState :=
  match st.matchedItems.find? fun m => m.id == matchId with
  | none => st
  | some m =>
    match st.specItems.find? (fun s => s.row.id == m.specification_item_id),
          st.invoiceItems.find? (fun i => i.row.id == m.invoice_item_id) with
    | some s, some iv =>
      let deselected := st.matchedItems.map fun x =>
        if x.specification_item_id = m.specification_item_id then
          { x with is_selected := false }
        else x
      let confirmed := deselected.map fun x =>
        if x.id = matchId then
          { x with is_confirmed := true, is_selected := true }
        else x
      let p := confirmRuleUpdate kind s.row.name iv.row.name st.rules st.nextRuleId
      { st with matchedItems := confirmed, rules := p.1, nextRuleId := p.2 }
    | _, _ => st

/-- Spec-item ids of a project. -/
def projectSpecIds (pid : ℕ) (st : DBState) : List ℕ :=
  (st.specItems.filter fun s => s.projectId == pid).map fun s => s.row.id

/-- The `DELETE FROM matched_items WHERE is_confirmed = 0 AND
specification_item_id IN (project's spec items)` statement
(matching.ts lines 19–25).  Runs outside any transaction. -/
def runDeletePhase (pid : ℕ) (st : DBState) : DBState :=
  { st with matchedItems := st.matchedItems.filter fun m =>
      !(!m.is_confirmed && (projectSpecIds pid st).contains m.specification_item_id) }

/-- The candidates `runMatching(projectId)` computes from the store
(matcher service lines 68–91: project's spec items, project's invoice items
through the `invoices` join, all rules). -/
def runCandidates (pid : ℕ) (st : DBState) : List MatchCandidate :=
  runMatching
    ((st.specItems.filter fun s => s.projectId == pid).map fun s => s.row)
    ((st.invoiceItems.filter fun i => i.projectId == pid).map fun i => i.row)
    (st.rules.map fun r =>
      { id := r.id
        specification_pattern := r.specification_pattern
        invoice_pattern := r.invoice_pattern
        confidence := r.confidence
        times_used := r.times_used })

/-- The insert loop (matching.ts lines 31–41), the only part the route wraps
in `db.transaction`: each candidate becomes a row with
`is_confirmed = 0, is_selected = 0`. -/
def runInsertPhase (pid : ℕ) (st : DBState) : DBState :=
  let cands := runCandidates pid st
  { st with
    matchedItems := st.matchedItems ++ cands.enum.map (fun p =>
      { id := st.nextMatchedId + p.1
        specification_item_id := p.2.specItemId
        invoice_item_id := p.2.invoiceItemId
        confidence := p.2.confidence
        match_type := matchTypeStr p.2.matchType
        is_confirmed := false
        is_selected := false })
    nextMatchedId := st.nextMatchedId + cands.length }

/-- `[...new Set(xs)]`: deduplicate keeping first occurrences. -/
def dedupFirst : List ℕ → List ℕ :=
  go []
where
  go (seen : List ℕ) : List ℕ → List ℕ
    | [] => []
    | a :: rest =>
      if seen.contains a then go seen rest else a :: go (a :: seen) rest

/-- The subquery of `selectBest` (matching.ts lines 45–53): the id of the
first maximal-confidence unconfirmed match of the spec item, if any. -/
def pickBestId (s : ℕ) (rows : List MatchedRow) : Option ℕ :=
  let cand := rows.filter fun r =>
    r.specification_item_id == s && !r.is_confirmed
  (cand.foldl (fun acc r =>
    match acc with
    | none => some r
    | some b => if r.confidence > b.confidence then some r else some b)
    none).map fun r => r.id

/-- `UPDATE matched_items SET is_selected = 1 WHERE id = tid`. -/
def applySelect (tid : ℕ) (rows : List MatchedRow) : List MatchedRow :=
  rows.map fun r => if r.id = tid then { r with is_selected := true } else r

/-- The auto-select loop (matching.ts lines 54–56), one `selectBest.run`
per spec id.  Each statement is its own implicit transaction. -/
def selectPhase (specIds : List ℕ) (rows : List MatchedRow) : List MatchedRow :=
  specIds.foldl (fun rs s =>
    match pickBestId s rs with
    | some tid => applySelect tid rs
    | none => rs) rows

/-- `POST /api/projects/:id/matching/run` (matching.ts lines 8–73):
delete stale unconfirmed matches, insert the new candidates, auto-select
the best unconfirmed candidate per spec item. -/
def runOp (pid : ℕ) (st : DBState) : DBState :=
  let st1 := runDeletePhase pid st
  let st2 := runInsertPhase pid st1
  let specIds := dedupFirst ((runCandidates pid st1).map fun c => c.specItemId)
  { st2 with matchedItems := selectPhase specIds st2.matchedItems }

/-- `PUT /api/matching/select/:id` (extended router lines 308–339): deselect
all matches of the spec item, then select the given one. -/
def selectMatch (matchId : ℕ) (st : DBState) : DBState :=
  match st.matchedItems.find? fun m => m.id == matchId with
  | none => st
  | some m =>
    { st with matchedItems :=
        (st.matchedItems.map fun x =>
          if x.specification_item_id = m.specification_item_id then
            { x with is_selected := false }
          else x).map fun x =>
          if x.id = matchId then { x with is_selected := true } else x }

/-- `POST /api/projects/:id/manual-match` (extended router lines 341–439):
reuse an existing pair row (deselect spec's matches, confirm and select it)
or insert a fresh confirmed, selected row with confidence 1.0 and
`match_type = 'manual'`, updating the supplier-scoped rule store with
confidence 0.95 on first confirmation. -/
def manualMatch (pid specItemId invoiceItemId : ℕ) (st : DBState) : DBState :=
  match st.specItems.find? (fun s => s.row.id == specItemId && s.projectId == pid),
        st.invoiceItems.find? (fun i => i.row.id == invoiceItemId && i.projectId == pid) with
  | some s, some iv =>
    let deselected := st.matchedItems.map fun x =>
      if x.specification_item_id = specItemId then { x with is_selected := false }
      else x
    match st.matchedItems.find? fun m =>
        m.specification_item_id == specItemId &&
        m.invoice_item_id == invoiceItemId with
    | some existing =>
      { st with matchedItems := deselected.map fun x =>
          if x.id = existing.id then
            { x with is_confirmed := true, is_selected := true }
          else x }
    | none =>
      let newRow : MatchedRow :=
        { id := st.nextMatchedId
          specification_item_id := specItemId
          invoice_item_id := invoiceItemId
          confidence := 1
          match_type := str "manual"
          is_confirmed := true
          is_selected := true }
      let specPattern := normalizeForMatching s.row.name
      let invoicePattern := normalizeForMatching iv.row.name
      let rulesNext : List DbRuleRow × ℕ :=
        match st.rules.find? fun r =>
            r.specification_pattern == specPattern &&
            r.invoice_pattern == invoicePattern &&
            r.supplier_id == iv.supplierId with
        | some r =>
          (st.rules.map fun x =>
            if x.id = r.id then { x with times_used := x.times_used + 1 } else x,
           st.nextRuleId)
        | none =>
          (st.rules ++ [{ id := st.nextRuleId
                          specification_pattern := specPattern
                          invoice_pattern := invoicePattern
                          confidence := 0.95
                          times_used := 1
                          supplier_id := iv.supplierId }],
           st.nextRuleId + 1)
      { st with matchedItems := deselected ++ [newRow]
                nextMatchedId := st.nextMatchedId + 1
                rules := rulesNext.1
                nextRuleId := rulesNext.2 }
  | _, _ => st

/-- Count of selected matches of one spec item. -/
def selectedCount (s : ℕ) (rows : List MatchedRow) : ℕ :=
  rows.countP fun r => r.specification_item_id == s && r.is_selected

/-- Count of selected unconfirmed matches of one spec item. -/
def selectedUnconfirmedCount (s : ℕ) (rows : List MatchedRow) : ℕ :=
  rows.countP fun r =>
    r.specification_item_id == s && r.is_selected && !r.is_confirmed

/-! ### Concrete store scenario used to exercise the matching routes -/

/-- A specification item with equipment code `A1`. -/
def spA : SpecItemRow :=
  ⟨1, str "кабель", none, some (str "A1"), none, some 1, none⟩

/-- An invoice item with article `A1`, same project. -/
def ivA : InvoiceItemRow :=
  ⟨10, 1, some (str "A1"), str "кабель", none, some 1, some 5, some 5⟩

/-- A store holding only the project data, no matches yet. -/
def st0 : DBState := ⟨[⟨1, spA⟩], [⟨1, none, ivA⟩], [], [], 100, 50⟩

/-- A store holding one stale unconfirmed, selected match candidate. -/
def stOld : DBState :=
  ⟨[⟨1, spA⟩], [⟨1, none, ivA⟩],
   [⟨100, 1, 10, 0.95, str "exact_article", false, true⟩], [], 101, 50⟩

/-- The fuzzy-tier invariant: a score labelled `name_similarity` or
`name_characteristics` is at most 0.94. -/
def FuzzyLe (b : ℚ × MatchType) : Prop :=
  b.2 = MatchType.name_similarity ∨ b.2 = MatchType.name_characteristics →
    b.1 ≤ 0.94

/-- One spec item's contribution to the output. -/
def groupOf (spec : SpecItemRow) (NI : List (InvoiceItemRow × Str))
    (NR : List NormRule) : List MatchCandidate :=
  (sortDesc (candidatesFor spec NI NR)).take 3

/-!
## Theorems
-/

/-! ### Supporting lemmas: table row parser -/

/-- A non-empty lowered string comes from a non-empty string. -/
theorem lowerStr_eq_nil_iff (s : Str) : lowerStr s = [] ↔ s = [] := by
  constructor
  · intro h
    cases s with
    | nil => rfl
    | cons c t => simp [lowerStr] at h
  · intro h; subst h; rfl

/-- A subtotal-looking name is non-empty. -/
theorem subtotalName_ne_nil {l : Str} (h : subtotalName l = true) : l ≠ [] := by
  intro hnil
  subst hnil
  revert h
  decide

/-- If the name cell trims to something non-empty, the row has data. -/
theorem hasData_of_name {row : List Str} {idx : Option ℕ}
    (h : jsTrim (cellAt row idx) ≠ []) : hasData row = true := by
  match idx with
  | none => exact absurd rfl h
  | some i =>
    simp only [cellAt] at h
    rcases Nat.lt_or_ge i row.length with hlt | hge
    · have hmem : row.getD i [] ∈ row := by
        have heq : row.getD i [] = row[i] := by
          simp [List.getD, List.getElem?_eq_getElem hlt]
        rw [heq]
        exact List.getElem_mem hlt
      simp only [hasData, List.any_eq_true]
      exact ⟨row.getD i [], hmem, by simpa [List.isEmpty_iff] using h⟩
    · have heq : row.getD i [] = [] := by
        simp [List.getD, List.getElem?_eq_none hge]
      rw [heq] at h
      exact absurd rfl h

/-- A subtotal row takes the silent-skip branch. -/
theorem rowAction_subtotal {mapping : ColumnMapping} {i : ℕ} {row : List Str}
    (h : subtotalName (lowerStr (jsTrim (cellAt row mapping.name))) = true) :
    rowAction mapping i row = .skipRow := by
  have hname : jsTrim (cellAt row mapping.name) ≠ [] := by
    intro hnil
    rw [hnil] at h
    exact absurd h (by decide)
  have hdata := hasData_of_name hname
  simp [rowAction, hdata, hname, h]

/-- A non-blank row with a blank resolved name takes the warning branch. -/
theorem rowAction_blankName {mapping : ColumnMapping} {i : ℕ} {row : List Str}
    (hdata : hasData row = true)
    (hname : jsTrim (cellAt row mapping.name) = []) :
    rowAction mapping i row = .warnRow (warnMsg (i + 1)) := by
  simp [rowAction, hdata, hname]

/--
C7.  In the table row parser (`parseTableData`, pdfParser.ts lines 86–128):
a row whose resolved name, lowercased, starts with `итого` or `всего` or
equals `total` is skipped silently — the parse result is exactly that of the
remaining rows, with no warning and no skipped-count increment; a non-blank
row whose resolved name is blank contributes exactly one warning, citing the
1-based row number, and one skipped-count increment, and no item.
-/
theorem parseTable_subtotal_silent_blank_warn
    (mapping : ColumnMapping) (i : ℕ) (row : List Str)
    (rest : List (List Str)) :
    (subtotalName (lowerStr (jsTrim (cellAt row mapping.name))) = true →
      parseRows mapping i (row :: rest) = parseRows mapping (i + 1) rest) ∧
    (hasData row = true → jsTrim (cellAt row mapping.name) = [] →
      (parseRows mapping i (row :: rest)).errors =
        warnMsg (i + 1) :: (parseRows mapping (i + 1) rest).errors ∧
      (parseRows mapping i (row :: rest)).skipped =
        (parseRows mapping (i + 1) rest).skipped + 1 ∧
      (parseRows mapping i (row :: rest)).items =
        (parseRows mapping (i + 1) rest).items) := by
  constructor
  · intro h
    simp [parseRows, rowAction_subtotal h]
  · intro hdata hname
    simp [parseRows, rowAction_blankName hdata hname]

/-- Witness for C7 on concrete rows: `["Итого по разделу"]` is skipped
silently, and `["", "x"]` (blank name, non-blank row) warns citing row 6. -/
theorem parseTable_subtotal_silent_blank_warn_witness :
    (parseRows ⟨none, some 0, none, none, none, none⟩ 3
        [[str "Итого по разделу"]] =
      parseRows ⟨none, some 0, none, none, none, none⟩ 4 []) ∧
    ((parseRows ⟨none, some 0, none, none, none, none⟩ 5
        [[str "", str "x"]]).errors =
      warnMsg 6 :: (parseRows ⟨none, some 0, none, none, none, none⟩ 6 []).errors ∧
     (parseRows ⟨none, some 0, none, none, none, none⟩ 5
        [[str "", str "x"]]).skipped =
      (parseRows ⟨none, some 0, none, none, none, none⟩ 6 []).skipped + 1 ∧
     (parseRows ⟨none, some 0, none, none, none, none⟩ 5
        [[str "", str "x"]]).items =
      (parseRows ⟨none, some 0, none, none, none, none⟩ 6 []).items) :=
  ⟨(parseTable_subtotal_silent_blank_warn ⟨none, some 0, none, none, none, none⟩
      3 [str "Итого по разделу"] []).1 (by decide),
   (parseTable_subtotal_silent_blank_warn ⟨none, some 0, none, none, none, none⟩
      5 [str "", str "x"] []).2 (by decide) (by decide)⟩

/--
C8.  `parsePrice` (pdfParser.ts lines 30–42) strips space-grouped thousands
and currency suffixes, converts the comma decimal separator to a dot —
`parsePrice "1 234,56 руб." = 1234.56` — and yields `null` (not an
exception) on unparsable input: `parsePrice "abc" = null`,
`parsePrice "" = null`.
-/
theorem parsePrice_spec :
    parsePrice (str "1 234,56 руб.") = some (1234.56 : ℚ) ∧
    parsePrice (str "abc") = none ∧
    parsePrice (str "") = none := by
  refine ⟨?_, ?_, ?_⟩ <;> with_unfolding_all rfl

/--
C10.  `detectColumns` keyword matching is substring-based per cell over all
fields: the single cell `"код товара"` contains both the `article` keyword
`код` and the `name` keyword `товар`, so both fields are assigned column 0,
the match count reaches 2, and the one-cell row qualifies as the header on
its own.
-/
theorem detectColumns_sharedCell :
    detectColumns [[str "код товара"]] =
      some ⟨⟨some 0, some 0, none, none, none, none⟩, 0⟩ ∧
    (detectRow [str "код товара"]).2 = 2 := by
  constructor <;> with_unfolding_all rfl

/-! ### Supporting lemmas: header/column detector -/

/-- One `applyField` step: the count grows exactly when a `none` field
becomes assigned. -/
theorem applyField_count (ct : Str) (col : ℕ) (cur : Option ℕ)
    (kws : List Str) (cnt : ℕ) :
    (applyField ct col cur kws cnt).2 + (if cur.isSome then 1 else 0) =
      cnt + (if (applyField ct col cur kws cnt).1.isSome then 1 else 0) := by
  cases cur with
  | some c => simp [applyField]
  | none =>
    simp only [applyField, Option.isSome_none]
    split_ifs <;> simp_all

/-- `applyCell` keeps the match count equal to the number of assigned
fields. -/
theorem applyCell_count (m : ColumnMapping) (cell : Str) (col : ℕ) :
    (applyCell m (countSet m) cell col).2 =
      countSet (applyCell m (countSet m) cell col).1 := by
  by_cases h0 : (normalizeTextCell cell).isEmpty
  · simp [applyCell, h0]
  · simp only [applyCell, h0, Bool.false_eq_true, if_false]
    have e1 := applyField_count (normalizeTextCell cell) col m.article
      KW_article (countSet m)
    have e2 := applyField_count (normalizeTextCell cell) col m.name KW_name
      (applyField (normalizeTextCell cell) col m.article KW_article
        (countSet m)).2
    have e3 := applyField_count (normalizeTextCell cell) col m.quantity
      KW_quantity (applyField (normalizeTextCell cell) col m.name KW_name
        (applyField (normalizeTextCell cell) col m.article KW_article
          (countSet m)).2).2
    have e4 := applyField_count (normalizeTextCell cell) col m.price KW_price
      (applyField (normalizeTextCell cell) col m.quantity KW_quantity
        (applyField (normalizeTextCell cell) col m.name KW_name
          (applyField (normalizeTextCell cell) col m.article KW_article
            (countSet m)).2).2).2
    have e5 := applyField_count (normalizeTextCell cell) col m.amount
      KW_amount (applyField (normalizeTextCell cell) col m.price KW_price
        (applyField (normalizeTextCell cell) col m.quantity KW_quantity
          (applyField (normalizeTextCell cell) col m.name KW_name
            (applyField (normalizeTextCell cell) col m.article KW_article
              (countSet m)).2).2).2).2
    have e6 := applyField_count (normalizeTextCell cell) col m.unit KW_unit
      (applyField (normalizeTextCell cell) col m.amount KW_amount
        (applyField (normalizeTextCell cell) col m.price KW_price
          (applyField (normalizeTextCell cell) col m.quantity KW_quantity
            (applyField (normalizeTextCell cell) col m.name KW_name
              (applyField (normalizeTextCell cell) col m.article KW_article
                (countSet m)).2).2).2).2).2
    simp only [countSet] at *
    omega

/-- The row scan keeps the match count equal to the number of assigned
fields. -/
theorem detectRowAux_count (row : List Str) :
    ∀ (m : ColumnMapping) (col : ℕ),
      (detectRowAux m (countSet m) col row).2 =
        countSet (detectRowAux m (countSet m) col row).1 := by
  induction row with
  | nil => intro m col; simp [detectRowAux]
  | cons cell rest ih =>
    intro m col
    simp only [detectRowAux]
    have h := applyCell_count m cell col
    rw [h]
    exact ih _ _

/-- The match count of a scanned row counts its assigned fields. -/
theorem detectRow_count (row : List Str) :
    (detectRow row).2 = countSet (detectRow row).1 := by
  have h : countSet emptyMapping = 0 := by decide
  simpa [detectRow, h] using detectRowAux_count row emptyMapping 0

/-- A mapping with `name` set and at least two fields set has another field
set. -/
theorem otherField_of_count (m : ColumnMapping) (hname : m.name.isSome = true)
    (h2 : 2 ≤ countSet m) :
    m.article.isSome = true ∨ m.quantity.isSome = true ∨
    m.price.isSome = true ∨ m.amount.isSome = true ∨ m.unit.isSome = true := by
  rcases m with ⟨a, n, u, q, p, am⟩
  cases a <;> cases u <;> cases q <;> cases p <;> cases am <;>
    simp_all [countSet]

/-- What a successful `detectLoop` scan means: the result comes from the
first qualifying row. -/
theorem detectLoop_spec (l : List (List Str)) :
    ∀ (i : ℕ) (r : DetectResult), detectLoop i l = some r →
      ∃ k, k < l.length ∧ r.mapping = (detectRow (l.getD k [])).1 ∧
        r.headerRowIndex = i + k ∧ rowQualifies (l.getD k []) = true ∧
        ∀ j, j < k → rowQualifies (l.getD j []) = false := by
  induction l with
  | nil => intro i r h; simp [detectLoop] at h
  | cons row rest ih =>
    intro i r h
    simp only [detectLoop] at h
    by_cases hq : (detectRow row).1.name.isSome = true ∧ 2 ≤ (detectRow row).2
    · rw [if_pos hq] at h
      injection h with h
      subst h
      refine ⟨0, by simp, by simp, by simp, ?_, ?_⟩
      · simp only [List.getD, List.getElem?_cons_zero, Option.getD_some]
        simp only [rowQualifies, Bool.and_eq_true, decide_eq_true_eq]
        exact hq
      · intro j hj; omega
    · rw [if_neg hq] at h
      obtain ⟨k, hk, hm, hi, hq', hprev⟩ := ih (i + 1) r h
      refine ⟨k + 1, by simpa using hk, ?_, by omega, ?_, ?_⟩
      · simpa using hm
      · simpa using hq'
      · intro j hj
        cases j with
        | zero =>
          have hrow : ((row :: rest).getD 0 []) = row := by simp [List.getD]
          rw [hrow]
          cases hname : (detectRow row).1.name.isSome with
          | false => simp [rowQualifies, hname]
          | true =>
            have h2 : ¬(2 ≤ (detectRow row).2) := fun hc => hq ⟨hname, hc⟩
            simp [rowQualifies, hname, h2]
        | succ j' =>
          have := hprev j' (by omega)
          simpa using this

/--
C6.  For every grid, `detectColumns` (pdfParser.ts lines 44–84) either
returns `null` or returns the mapping of the first qualifying row among at
most the first 10 rows; the returned mapping has `name` set together with
at least one other field, and no row with a lower index qualifies.
-/
theorem detectColumns_spec (rows : List (List Str)) (r : DetectResult)
    (h : detectColumns rows = some r) :
    r.mapping.name.isSome = true ∧
    (r.mapping.article.isSome = true ∨ r.mapping.quantity.isSome = true ∨
     r.mapping.price.isSome = true ∨ r.mapping.amount.isSome = true ∨
     r.mapping.unit.isSome = true) ∧
    r.headerRowIndex < rows.length ∧ r.headerRowIndex < 10 ∧
    r.mapping = (detectRow (rows.getD r.headerRowIndex [])).1 ∧
    rowQualifies (rows.getD r.headerRowIndex []) = true ∧
    (∀ j, j < r.headerRowIndex → rowQualifies (rows.getD j []) = false) := by
  obtain ⟨k, hk, hm, hi, hq, hprev⟩ := detectLoop_spec (rows.take 10) 0 r h
  have hk10 : k < 10 := by
    have := List.length_take 10 rows ▸ hk
    omega
  have hklen : k < rows.length := by
    have := List.length_take 10 rows ▸ hk
    omega
  have hgetD : ∀ j, j < 10 → (rows.take 10).getD j [] = rows.getD j [] := by
    intro j hj
    rcases Nat.lt_or_ge j rows.length with hlt | hge
    · have hjt : j < (rows.take 10).length := by
        rw [List.length_take]; omega
      simp [List.getD, List.get?_eq_getElem?, List.getElem?_eq_getElem hjt,
        List.getElem?_eq_getElem hlt, List.getElem_take]
    · have h1 : (rows.take 10).getD j [] = [] := by
        have : (rows.take 10).length ≤ j := by rw [List.length_take]; omega
        simp [List.getD, List.getElem?_eq_none this]
      have h2 : rows.getD j [] = [] := by
        simp [List.getD, List.getElem?_eq_none hge]
      rw [h1, h2]
  have hidx : r.headerRowIndex = k := by omega
  subst hidx
  have hmap : r.mapping = (detectRow (rows.getD r.headerRowIndex [])).1 := by
    rw [hm, hgetD _ hk10]
  have hqual : rowQualifies (rows.getD r.headerRowIndex []) = true := by
    rw [← hgetD _ hk10]; exact hq
  have hname : r.mapping.name.isSome = true := by
    rw [hmap]
    have := hqual
    simp only [rowQualifies, Bool.and_eq_true, decide_eq_true_eq] at this
    exact this.1
  have hcnt : 2 ≤ countSet r.mapping := by
    rw [hmap, ← detectRow_count]
    have := hqual
    simp only [rowQualifies, Bool.and_eq_true, decide_eq_true_eq] at this
    exact this.2
  refine ⟨hname, otherField_of_count _ hname hcnt, hklen, hk10, hmap, hqual, ?_⟩
  intro j hj
  rw [← hgetD j (by omega)]
  exact hprev j hj

/-- Witness for C6 at a concrete grid with a non-qualifying first row. -/
theorem detectColumns_spec_witness :
    ((⟨⟨some 1, some 0, none, none, none, none⟩, 1⟩ :
        DetectResult).mapping.name.isSome = true) ∧
    ((⟨⟨some 1, some 0, none, none, none, none⟩, 1⟩ :
        DetectResult).headerRowIndex < 10) := by
  have h := detectColumns_spec
    [[str "счёт"], [str "товар", str "код"]]
    ⟨⟨some 1, some 0, none, none, none, none⟩, 1⟩ (by decide)
  exact ⟨h.1, h.2.2.2.1⟩

/-! ### Supporting lemmas: rule learner -/

/-- `find?` returns the first satisfying element. -/
theorem find?_append_cons {α : Type} (p : α → Bool) (l1 : List α) (a : α)
    (l2 : List α) (h1 : ∀ x ∈ l1, p x = false) (h2 : p a = true) :
    (l1 ++ a :: l2).find? p = some a := by
  induction l1 with
  | nil => simp [List.find?, h2]
  | cons b t ih =>
    have hb : p b = false := h1 b (by simp)
    simp only [List.cons_append, List.find?, hb]
    exact ih fun x hx => h1 x (by simp [hx])

/-- Elements other than the found one have different ids under a `Nodup`
id column. -/
theorem ne_id_of_nodup {l1 l2 : List DbRuleRow} {r : DbRuleRow}
    (hnd : ((l1 ++ r :: l2).map fun x => x.id).Nodup) :
    (∀ x ∈ l1, x.id ≠ r.id) ∧ (∀ x ∈ l2, x.id ≠ r.id) := by
  rw [List.map_append, List.map_cons, List.nodup_append] at hnd
  obtain ⟨-, hnd2, hdisj⟩ := hnd
  constructor
  · intro x hx heq
    exact hdisj (List.mem_map_of_mem _ hx) (by simp [heq])
  · intro x hx heq
    rw [List.nodup_cons] at hnd2
    exact hnd2.1 (heq ▸ List.mem_map_of_mem _ hx)

/-- An id-keyed update touches no row whose id differs. -/
theorem map_update_id {f : DbRuleRow → DbRuleRow} {l : List DbRuleRow}
    {rid : ℕ} (h : ∀ x ∈ l, x.id ≠ rid) :
    (l.map fun x => if x.id = rid then f x else x) = l := by
  induction l with
  | nil => rfl
  | cons a t ih =>
    rw [List.map_cons, if_neg (h a (by simp)),
      ih fun x hx => h x (by simp [hx])]

/--
C3.  The rule learner of the confirm routes (matching.ts lines 197–213 and
279–297): if a rule for the normalized pair exists, `times_used` is
incremented and the confidence becomes `MIN(1.0, confidence + 0.02)` for
`exact` and stays unchanged for `analog` — never decreasing while the store
invariant `confidence ≤ 1` holds; if no rule exists, a new rule is inserted
with confidence 0.9 (`exact`) or 0.75 (`analog`) and `times_used = 1`.
-/
theorem confirmRule_spec (kind : ConfirmKind) (specName invoiceName : Str)
    (nextId : ℕ) :
    (∀ (l1 : List DbRuleRow) (r : DbRuleRow) (l2 : List DbRuleRow),
      (∀ x ∈ l1, rulePatternsMatch specName invoiceName x = false) →
      rulePatternsMatch specName invoiceName r = true →
      (((l1 ++ r :: l2).map fun x => x.id).Nodup) →
      confirmRuleUpdate kind specName invoiceName (l1 ++ r :: l2) nextId =
        (l1 ++ { r with
                  times_used := r.times_used + 1
                  confidence := confirmedConfidence kind r.confidence } :: l2,
         nextId)) ∧
    (∀ c : ℚ, c ≤ 1 → c ≤ confirmedConfidence kind c) ∧
    (∀ rules : List DbRuleRow,
      (∀ x ∈ rules, rulePatternsMatch specName invoiceName x = false) →
      confirmRuleUpdate kind specName invoiceName rules nextId =
        (rules ++ [{ id := nextId
                     specification_pattern := normalizeForMatching specName
                     invoice_pattern := normalizeForMatching invoiceName
                     confidence := initialConfidence kind
                     times_used := 1
                     supplier_id := none }], nextId + 1)) := by
  refine ⟨?_, ?_, ?_⟩
  · intro l1 r l2 h1 h2 hnd
    have hfind := find?_append_cons (rulePatternsMatch specName invoiceName)
      l1 r l2 h1 h2
    obtain ⟨hne1, hne2⟩ := ne_id_of_nodup hnd
    simp only [confirmRuleUpdate, hfind, List.map_append, List.map_cons,
      if_pos rfl]
    rw [map_update_id hne1, map_update_id hne2]
    simp
  · intro c hc
    cases kind with
    | exact =>
      simp only [confirmedConfidence, le_min_iff]
      constructor
      · exact hc
      · linarith
    | analog => simp [confirmedConfidence]
  · intro rules hall
    have hfind : rules.find? (rulePatternsMatch specName invoiceName) = none :=
      List.find?_eq_none.mpr fun x hx => by simp [hall x hx]
    simp [confirmRuleUpdate, hfind]

/-- Witness for C3, the spec's analog scenario: a first `analog`
confirmation of an unseen pair inserts `(0.75, 1)`; a second one leaves the
confidence at 0.75 and increments `times_used` to 2. -/
theorem confirmRule_spec_witness :
    confirmRuleUpdate .analog (str "Кабель") (str "Провод") [] 50 =
      ([{ id := 50
          specification_pattern := str "кабель"
          invoice_pattern := str "провод"
          confidence := initialConfidence .analog
          times_used := 1
          supplier_id := none }], 51) ∧
    confirmRuleUpdate .analog (str "Кабель") (str "Провод")
        [{ id := 50
           specification_pattern := str "кабель"
           invoice_pattern := str "провод"
           confidence := 0.75
           times_used := 1
           supplier_id := none }] 51 =
      ([{ id := 50
          specification_pattern := str "кабель"
          invoice_pattern := str "провод"
          confidence := confirmedConfidence .analog 0.75
          times_used := 2
          supplier_id := none }], 51) := by
  constructor
  · have h := (confirmRule_spec .analog (str "Кабель") (str "Провод") 50).2.2
      [] (by intro x hx; simp at hx)
    simpa using h
  · have h := (confirmRule_spec .analog (str "Кабель") (str "Провод") 51).1
      []
      { id := 50
        specification_pattern := str "кабель"
        invoice_pattern := str "провод"
        confidence := 0.75
        times_used := 1
        supplier_id := none }
      [] (by intro x hx; simp at hx) (by decide) (by decide)
    simpa using h

/-! ### Supporting lemmas: text normalizer idempotence -/

/-- `Char.ofNat` below the surrogate range keeps its scalar value. -/
theorem toNat_ofNat_lt {n : ℕ} (h : n < 0xD800) : (Char.ofNat n).toNat = n := by
  have hv : Nat.isValidChar n := Or.inl h
  simp [Char.ofNat, hv]
  rfl

/-- `jsToLower` is idempotent. -/
theorem jsToLower_idem (c : Char) : jsToLower (jsToLower c) = jsToLower c := by
  by_cases h1 : 0x41 ≤ c.toNat ∧ c.toNat ≤ 0x5A
  · have hlow : jsToLower c = Char.ofNat (c.toNat + 0x20) := by
      unfold jsToLower; rw [if_pos h1]
    have ht : (Char.ofNat (c.toNat + 0x20)).toNat = c.toNat + 0x20 :=
      toNat_ofNat_lt (by omega)
    rw [hlow]
    unfold jsToLower
    rw [if_neg (by rw [ht]; omega), if_neg (by rw [ht]; omega),
      if_neg (by rw [ht]; omega)]
  · by_cases h2 : 0x410 ≤ c.toNat ∧ c.toNat ≤ 0x42F
    · have hlow : jsToLower c = Char.ofNat (c.toNat + 0x20) := by
        unfold jsToLower; rw [if_neg h1, if_pos h2]
      have ht : (Char.ofNat (c.toNat + 0x20)).toNat = c.toNat + 0x20 :=
        toNat_ofNat_lt (by omega)
      rw [hlow]
      unfold jsToLower
      rw [if_neg (by rw [ht]; omega), if_neg (by rw [ht]; omega),
        if_neg (by rw [ht]; omega)]
    · by_cases h3 : c.toNat = 0x401
      · have hlow : jsToLower c = Char.ofNat 0x451 := by
          unfold jsToLower; rw [if_neg h1, if_neg h2, if_pos h3]
        rw [hlow]
        decide
      · have hlow : jsToLower c = c := by
          unfold jsToLower; rw [if_neg h1, if_neg h2, if_neg h3]
        rw [hlow, hlow]

/-- A word character is never whitespace. -/
theorem isWordChar_not_space {c : Char} (h : isWordChar c = true) :
    isJsSpace c = false := by
  by_contra hx
  have hs : isJsSpace c = true := by simpa using hx
  simp only [isJsSpace, Bool.or_eq_true, decide_eq_true_eq] at hs
  rcases hs with ((h' | h') | h') | h' <;> subst h' <;>
    exact absurd h (by decide)

/-- A non-space character is not the space character. -/
theorem ne_space_of_not_space {c : Char} (h : isJsSpace c = false) :
    c ≠ ' ' := by
  intro h'
  subst h'
  exact absurd h (by decide)

/-- `map` fixes a list it fixes pointwise. -/
theorem map_eq_self {f : Char → Char} : ∀ {l : Str},
    (∀ c ∈ l, f c = c) → l.map f = l := by
  intro l
  induction l with
  | nil => intro _; rfl
  | cons a t ih =>
    intro h
    rw [List.map_cons, h a (by simp), ih fun c hc => h c (by simp [hc])]

/-- `dropWhile` fixes a list none of whose elements satisfy the predicate
(only the head actually matters). -/
theorem dropWhile_eq_self_of_all {p : Char → Bool} : ∀ {l : Str},
    (∀ c ∈ l, p c = false) → l.dropWhile p = l := by
  intro l
  cases l with
  | nil => intro _; rfl
  | cons a t => intro h; simp [List.dropWhile, h a (by simp)]

/-- `dropWhile` fixes any extension of a non-empty list it fixes. -/
theorem dropWhile_append_of_fix {p : Char → Bool} {l1 l2 : Str}
    (h0 : l1 ≠ []) (h : l1.dropWhile p = l1) :
    (l1 ++ l2).dropWhile p = l1 ++ l2 := by
  cases l1 with
  | nil => exact absurd rfl h0
  | cons a t =>
    have hpa : p a = false := by
      by_contra hx
      have hx' : p a = true := by simpa using hx
      simp only [List.dropWhile, hx'] at h
      have hlen := congrArg List.length h
      have hle := (List.dropWhile_sublist (l := t) p).length_le
      simp at hlen
      omega
    simp [List.dropWhile, hpa]

/-- Characters survive `jsTrim` only from the original string. -/
theorem mem_jsTrim {c : Char} {l : Str} (h : c ∈ jsTrim l) : c ∈ l := by
  unfold jsTrim at h
  rw [List.mem_reverse] at h
  have h2 := (List.dropWhile_sublist isJsSpace).subset h
  rw [List.mem_reverse] at h2
  exact (List.dropWhile_sublist isJsSpace).subset h2

/-- `jsTrim` fixes a string whose two ends resist `dropWhile`. -/
theorem jsTrim_eq_self {l : Str} (h1 : l.dropWhile isJsSpace = l)
    (h2 : l.reverse.dropWhile isJsSpace = l.reverse) : jsTrim l = l := by
  unfold jsTrim
  rw [h1, h2, List.reverse_reverse]

/-- Characters of `collapseWs` output: either the inserted space or a
non-space character of the input. -/
theorem collapseWs_chars {c : Char} : ∀ {l : Str}, c ∈ collapseWs l →
    c = ' ' ∨ (c ∈ l ∧ isJsSpace c = false) := by
  intro l
  induction l with
  | nil => intro h; simp [collapseWs] at h
  | cons a t ih =>
    intro h
    by_cases ha : isJsSpace a
    · cases hct : collapseWs t with
      | nil =>
        rw [show collapseWs (a :: t) = [' '] by
          simp [collapseWs, ha, hct]] at h
        simp at h
        exact Or.inl h
      | cons d t2 =>
        by_cases hd : d = ' '
        · rw [show collapseWs (a :: t) = ' ' :: t2 by
            simp [collapseWs, ha, hct, hd]] at h
          rcases List.mem_cons.mp h with h' | h'
          · exact Or.inl h'
          · rcases ih (by rw [hct]; exact List.mem_cons_of_mem _ h') with h'' | h''
            · exact Or.inl h''
            · exact Or.inr ⟨List.mem_cons_of_mem _ h''.1, h''.2⟩
        · rw [show collapseWs (a :: t) = ' ' :: d :: t2 by
            simp [collapseWs, ha, hct, hd]] at h
          rcases List.mem_cons.mp h with h' | h'
          · exact Or.inl h'
          · rcases ih (by rw [hct]; exact h') with h'' | h''
            · exact Or.inl h''
            · exact Or.inr ⟨List.mem_cons_of_mem _ h''.1, h''.2⟩
    · rw [show collapseWs (a :: t) = a :: collapseWs t by
        simp [collapseWs, ha]] at h
      rcases List.mem_cons.mp h with h' | h'
      · subst h'
        exact Or.inr ⟨by simp, by simpa using ha⟩
      · rcases ih h' with h'' | h''
        · exact Or.inl h''
        · exact Or.inr ⟨List.mem_cons_of_mem _ h''.1, h''.2⟩

/-- `collapseWs` fixes a space-free string. -/
theorem collapseWs_nospace : ∀ {l : Str},
    (∀ c ∈ l, isJsSpace c = false) → collapseWs l = l := by
  intro l
  induction l with
  | nil => intro _; rfl
  | cons a t ih =>
    intro h
    simp [collapseWs, h a (by simp), ih fun c hc => h c (by simp [hc])]

/-- `collapseWs` passes over a space-free prefix. -/
theorem collapseWs_append_nospace {w l : Str}
    (h : ∀ c ∈ w, isJsSpace c = false) :
    collapseWs (w ++ l) = w ++ collapseWs l := by
  induction w with
  | nil => rfl
  | cons a t ih =>
    simp only [List.cons_append]
    rw [show collapseWs (a :: (t ++ l)) = a :: collapseWs (t ++ l) by
      simp [collapseWs, h a (by simp)]]
    rw [ih fun c hc => h c (by simp [hc])]

/-- Characters of a joined word list: a word character or the separator. -/
theorem mem_joinSp {c : Char} : ∀ {ws : List Str}, c ∈ joinSp ws →
    c = ' ' ∨ ∃ w ∈ ws, c ∈ w := by
  intro ws
  induction ws with
  | nil => intro h; simp [joinSp] at h
  | cons w ws ih =>
    intro h
    cases ws with
    | nil => exact Or.inr ⟨w, by simp, by simpa [joinSp] using h⟩
    | cons x xs =>
      rw [show joinSp (w :: x :: xs) = w ++ ' ' :: joinSp (x :: xs) from rfl]
        at h
      rcases List.mem_append.mp h with h' | h'
      · exact Or.inr ⟨w, by simp, h'⟩
      · rcases List.mem_cons.mp h' with h'' | h''
        · exact Or.inl h''
        · rcases ih h'' with h3 | ⟨w', hw', hc⟩
          · exact Or.inl h3
          · exact Or.inr ⟨w', by simp [hw'], hc⟩

/-- A joined list of non-empty space-free words starts with a non-space
character. -/
theorem joinSp_head : ∀ (ws : List Str), ws ≠ [] →
    (∀ w ∈ ws, w ≠ []) → (∀ w ∈ ws, ∀ c ∈ w, isJsSpace c = false) →
    ∃ c t, joinSp ws = c :: t ∧ isJsSpace c = false := by
  intro ws hne hw hsp
  cases ws with
  | nil => exact absurd rfl hne
  | cons w ws =>
    cases hwc : w with
    | nil => exact absurd hwc (hw w (by simp))
    | cons c w' =>
      have hc : isJsSpace c = false := hsp w (by simp) c (by simp [hwc])
      cases ws with
      | nil => exact ⟨c, w', by simp [joinSp, hwc], hc⟩
      | cons x xs =>
        exact ⟨c, w' ++ ' ' :: joinSp (x :: xs), rfl, hc⟩

/-- A joined list of non-empty words is non-empty. -/
theorem joinSp_ne_nil (ws : List Str) (hne : ws ≠ [])
    (hw : ∀ w ∈ ws, w ≠ []) (hsp : ∀ w ∈ ws, ∀ c ∈ w, isJsSpace c = false) :
    joinSp ws ≠ [] := by
  obtain ⟨c, t, heq, -⟩ := joinSp_head ws hne hw hsp
  simp [heq]

/-- `collapseWs` fixes a join of non-empty space-free words. -/
theorem collapseWs_joinSp : ∀ (ws : List Str), (∀ w ∈ ws, w ≠ []) →
    (∀ w ∈ ws, ∀ c ∈ w, isJsSpace c = false) →
    collapseWs (joinSp ws) = joinSp ws := by
  intro ws
  induction ws with
  | nil => intro _ _; rfl
  | cons w ws ih =>
    intro hw hsp
    cases ws with
    | nil =>
      show collapseWs (joinSp [w]) = joinSp [w]
      simp only [joinSp]
      exact collapseWs_nospace (hsp w (by simp))
    | cons x xs =>
      rw [show joinSp (w :: x :: xs) = w ++ ' ' :: joinSp (x :: xs) from rfl]
      rw [collapseWs_append_nospace (hsp w (by simp))]
      congr 1
      have hJ := ih (fun v hv => hw v (by simp [hv]))
        (fun v hv => hsp v (by simp [hv]))
      obtain ⟨c, t, heq, hc⟩ := joinSp_head (x :: xs) (by simp)
        (fun v hv => hw v (by simp [hv]))
        (fun v hv => hsp v (by simp [hv]))
      have hcne : c ≠ ' ' := ne_space_of_not_space hc
      have hstep : collapseWs (' ' :: joinSp (x :: xs)) =
          match collapseWs (joinSp (x :: xs)) with
          | d :: t2 => if d = ' ' then ' ' :: t2 else ' ' :: d :: t2
          | [] => [' '] := by
        rw [show collapseWs (' ' :: joinSp (x :: xs)) =
            if isJsSpace ' ' then
              match collapseWs (joinSp (x :: xs)) with
              | d :: t2 => if d = ' ' then ' ' :: t2 else ' ' :: d :: t2
              | [] => [' ']
            else ' ' :: collapseWs (joinSp (x :: xs)) from rfl]
        rw [if_pos (by decide)]
      rw [hstep, hJ, heq]
      simp [hcne]

/-- The front of a join of non-empty space-free words resists `dropWhile`. -/
theorem dropWhile_joinSp (ws : List Str) (hw : ∀ w ∈ ws, w ≠ [])
    (hsp : ∀ w ∈ ws, ∀ c ∈ w, isJsSpace c = false) :
    (joinSp ws).dropWhile isJsSpace = joinSp ws := by
  cases ws with
  | nil => rfl
  | cons w ws =>
    cases ws with
    | nil =>
      show (joinSp [w]).dropWhile isJsSpace = joinSp [w]
      simp only [joinSp]
      exact dropWhile_eq_self_of_all (hsp w (by simp))
    | cons x xs =>
      rw [show joinSp (w :: x :: xs) = w ++ ' ' :: joinSp (x :: xs) from rfl]
      exact dropWhile_append_of_fix (hw w (by simp))
        (dropWhile_eq_self_of_all (hsp w (by simp)))

/-- The back of a join of non-empty space-free words resists `dropWhile`. -/
theorem revDropWhile_joinSp : ∀ (ws : List Str), (∀ w ∈ ws, w ≠ []) →
    (∀ w ∈ ws, ∀ c ∈ w, isJsSpace c = false) →
    (joinSp ws).reverse.dropWhile isJsSpace = (joinSp ws).reverse := by
  intro ws
  induction ws with
  | nil => intro _ _; rfl
  | cons w ws ih =>
    intro hw hsp
    cases ws with
    | nil =>
      show (joinSp [w]).reverse.dropWhile isJsSpace = (joinSp [w]).reverse
      simp only [joinSp]
      exact dropWhile_eq_self_of_all fun c hc =>
        hsp w (by simp) c (List.mem_reverse.mp hc)
    | cons x xs =>
      rw [show joinSp (w :: x :: xs) = w ++ ' ' :: joinSp (x :: xs) from rfl]
      rw [List.reverse_append, List.reverse_cons, List.append_assoc]
      apply dropWhile_append_of_fix
      · have := joinSp_ne_nil (x :: xs) (by simp)
          (fun v hv => hw v (by simp [hv]))
          (fun v hv => hsp v (by simp [hv]))
        simpa using this
      · exact ih (fun v hv => hw v (by simp [hv]))
          (fun v hv => hsp v (by simp [hv]))

/-- `jsTrim` fixes a join of non-empty space-free words. -/
theorem jsTrim_joinSp (ws : List Str) (hw : ∀ w ∈ ws, w ≠ [])
    (hsp : ∀ w ∈ ws, ∀ c ∈ w, isJsSpace c = false) :
    jsTrim (joinSp ws) = joinSp ws :=
  jsTrim_eq_self (dropWhile_joinSp ws hw hsp) (revDropWhile_joinSp ws hw hsp)

/-- `splitSp` never returns the empty list of words. -/
theorem splitSp_ne_nil : ∀ (l : Str), splitSp l ≠ [] := by
  intro l
  induction l with
  | nil => simp [splitSp]
  | cons c rest ih =>
    simp only [splitSp]
    cases h : splitSp rest with
    | nil => exact absurd h ih
    | cons w ws =>
      by_cases hc : c = ' ' <;> simp [hc]

/-- Splitting a space-free string returns it whole. -/
theorem splitSp_nospace : ∀ {w : Str},
    (∀ c ∈ w, isJsSpace c = false) → splitSp w = [w] := by
  intro w
  induction w with
  | nil => intro _; rfl
  | cons c rest ih =>
    intro h
    have hc : c ≠ ' ' := ne_space_of_not_space (h c (by simp))
    simp only [splitSp]
    rw [ih fun d hd => h d (by simp [hd])]
    simp [hc]

/-- Splitting a space-free word followed by a space peels off the word. -/
theorem splitSp_word_sep : ∀ (w l : Str),
    (∀ c ∈ w, isJsSpace c = false) →
    splitSp (w ++ ' ' :: l) = w :: splitSp l := by
  intro w
  induction w with
  | nil =>
    intro l _
    simp only [List.nil_append, splitSp]
    cases h : splitSp l with
    | nil => exact absurd h (splitSp_ne_nil l)
    | cons w' ws => simp
  | cons c w' ih =>
    intro l h
    have hc : c ≠ ' ' := ne_space_of_not_space (h c (by simp))
    simp only [List.cons_append, splitSp, List.append_eq]
    rw [ih l fun d hd => h d (by simp [hd])]
    simp [hc]

/-- `splitSp` inverts `joinSp` on non-empty lists of space-free words. -/
theorem splitSp_joinSp : ∀ (ws : List Str), ws ≠ [] →
    (∀ w ∈ ws, ∀ c ∈ w, isJsSpace c = false) →
    splitSp (joinSp ws) = ws := by
  intro ws
  induction ws with
  | nil => intro h _; exact absurd rfl h
  | cons w ws ih =>
    intro _ hsp
    cases ws with
    | nil =>
      show splitSp (joinSp [w]) = [w]
      simp only [joinSp]
      exact splitSp_nospace (hsp w (by simp))
    | cons x xs =>
      rw [show joinSp (w :: x :: xs) = w ++ ' ' :: joinSp (x :: xs) from rfl]
      rw [splitSp_word_sep w _ (hsp w (by simp))]
      rw [ih (by simp) (fun v hv => hsp v (by simp [hv]))]

/-- Every character of every split word is a non-separator character of the
input. -/
theorem splitSp_mem_chars : ∀ (l : Str) (w : Str), w ∈ splitSp l →
    ∀ c ∈ w, c ∈ l ∧ c ≠ ' ' := by
  intro l
  induction l with
  | nil =>
    intro w hw c hc
    simp [splitSp] at hw
    subst hw
    simp at hc
  | cons a rest ih =>
    intro w hw c hc
    cases h : splitSp rest with
    | nil => exact absurd h (splitSp_ne_nil rest)
    | cons w' ws' =>
      by_cases ha : a = ' '
      · rw [show splitSp (a :: rest) = [] :: w' :: ws' by
          simp [splitSp, h, ha]] at hw
        rcases List.mem_cons.mp hw with h1 | h1
        · subst h1; simp at hc
        · have := ih w (h ▸ h1) c hc
          exact ⟨List.mem_cons_of_mem _ this.1, this.2⟩
      · rw [show splitSp (a :: rest) = (a :: w') :: ws' by
          simp [splitSp, h, ha]] at hw
        rcases List.mem_cons.mp hw with h1 | h1
        · subst h1
          rcases List.mem_cons.mp hc with h2 | h2
          · subst h2; exact ⟨by simp, ha⟩
          · have := ih w' (h ▸ List.mem_cons_self w' ws') c h2
            exact ⟨List.mem_cons_of_mem _ this.1, this.2⟩
        · have := ih w (h ▸ List.mem_cons_of_mem _ h1) c hc
          exact ⟨List.mem_cons_of_mem _ this.1, this.2⟩

/-- Every word the normalizer keeps is non-empty, not a stop word, and made
of lowercase-fixed word characters. -/
theorem normWords_good (s : Str) :
    ∀ w ∈ normWords s,
      w ≠ [] ∧ STOP_WORDS.contains w = false ∧
      ∀ c ∈ w, isWordChar c = true ∧ jsToLower c = c ∧ isJsSpace c = false := by
  intro w hw
  simp only [normWords] at hw
  rw [List.mem_filter] at hw
  obtain ⟨hmem, hP⟩ := hw
  rw [Bool.and_eq_true] at hP
  obtain ⟨hne', hstop'⟩ := hP
  have hne : w ≠ [] := by simpa [List.isEmpty_iff] using hne'
  have hstop : STOP_WORDS.contains w = false := by simpa using hstop'
  refine ⟨hne, hstop, ?_⟩
  intro c hc
  obtain ⟨hc3, hcne⟩ := splitSp_mem_chars _ w hmem c hc
  have hc4 : c ∈ collapseWs (replacePunct (jsTrim (lowerStr s))) :=
    mem_jsTrim hc3
  rcases collapseWs_chars hc4 with h' | ⟨hc5, hnsp⟩
  · exact absurd h' hcne
  · have hmap : ∃ d ∈ jsTrim (lowerStr s),
        (if isWordChar d || isJsSpace d then d else ' ') = c := by
      simpa [replacePunct] using hc5
    obtain ⟨d, hd, hdc⟩ := hmap
    by_cases hkept : (isWordChar d || isJsSpace d) = true
    · rw [if_pos hkept] at hdc
      subst hdc
      have hword : isWordChar d = true := by
        rcases (by simpa using hkept :
            isWordChar d = true ∨ isJsSpace d = true) with h'' | h''
        · exact h''
        · rw [h''] at hnsp; cases hnsp
      have hd2 : d ∈ lowerStr s := mem_jsTrim hd
      have hex : ∃ e ∈ s, jsToLower e = d := by simpa [lowerStr] using hd2
      obtain ⟨e, -, he⟩ := hex
      refine ⟨hword, ?_, hnsp⟩
      rw [← he, jsToLower_idem]
    · rw [if_neg hkept] at hdc
      exact absurd hdc.symm hcne

/-- The normalizer's word extraction fixes the join of its own output. -/
theorem normWords_joinSp_fix (ws : List Str)
    (hne : ∀ w ∈ ws, w ≠ [])
    (hstop : ∀ w ∈ ws, STOP_WORDS.contains w = false)
    (hword : ∀ w ∈ ws, ∀ c ∈ w, isWordChar c = true)
    (hfix : ∀ w ∈ ws, ∀ c ∈ w, jsToLower c = c)
    (hsp : ∀ w ∈ ws, ∀ c ∈ w, isJsSpace c = false) :
    normWords (joinSp ws) = ws := by
  have h1 : lowerStr (joinSp ws) = joinSp ws := by
    apply map_eq_self
    intro c hc
    rcases mem_joinSp hc with h' | ⟨w, hw, hcw⟩
    · subst h'; decide
    · exact hfix w hw c hcw
  have h2 : jsTrim (joinSp ws) = joinSp ws := jsTrim_joinSp ws hne hsp
  have h3 : replacePunct (joinSp ws) = joinSp ws := by
    apply map_eq_self
    intro c hc
    rcases mem_joinSp hc with h' | ⟨w, hw, hcw⟩
    · subst h'; decide
    · exact if_pos (by rw [hword w hw c hcw]; rfl)
  have h4 : collapseWs (joinSp ws) = joinSp ws := collapseWs_joinSp ws hne hsp
  simp only [normWords]
  rw [h1, h2, h3, h4, h2]
  by_cases hnil : ws = []
  · subst hnil; decide
  · rw [splitSp_joinSp ws hnil hsp]
    apply List.filter_eq_self.mpr
    intro w hw
    have h5 := hstop w hw
    simp only [Bool.and_eq_true, Bool.not_eq_true']
    refine ⟨by simpa [List.isEmpty_iff] using hne w hw, h5⟩

/--
C9.  The text normalizer used for matching (`normalizeForMatching`, matcher
service lines 53–62) is idempotent: normalizing twice equals normalizing
once, for every string.
-/
theorem normalizeForMatching_idem (s : Str) :
    normalizeForMatching (normalizeForMatching s) = normalizeForMatching s := by
  have hg := normWords_good s
  show joinSp (normWords (joinSp (normWords s))) = joinSp (normWords s)
  rw [normWords_joinSp_fix (normWords s)
    (fun w hw => (hg w hw).1)
    (fun w hw => (hg w hw).2.1)
    (fun w hw c hc => ((hg w hw).2.2 c hc).1)
    (fun w hw c hc => ((hg w hw).2.2 c hc).2.1)
    (fun w hw c hc => ((hg w hw).2.2 c hc).2.2)]

/-! ### Supporting lemmas: matching engine -/

/-- `round3` is monotone. -/
theorem round3_mono {x y : ℚ} (h : x ≤ y) : round3 x ≤ round3 y := by
  unfold round3
  have hf : ⌊x * 1000 + 1 / 2⌋ ≤ ⌊y * 1000 + 1 / 2⌋ :=
    Int.floor_le_floor (by linarith)
  have : ((⌊x * 1000 + 1 / 2⌋ : ℤ) : ℚ) ≤ ((⌊y * 1000 + 1 / 2⌋ : ℤ) : ℚ) := by
    exact_mod_cast hf
  linarith

/-- `round3` fixes exact multiples of one thousandth. -/
theorem round3_eq_self {n : ℤ} : round3 ((n : ℚ) / 1000) = (n : ℚ) / 1000 := by
  unfold round3
  have h1 : (n : ℚ) / 1000 * 1000 + 1 / 2 = (n : ℚ) + 1 / 2 := by ring
  rw [h1]
  have h2 : ⌊(n : ℚ) + 1 / 2⌋ = ⌊(1 : ℚ) / 2⌋ + n := by
    rw [add_comm]
    exact Int.floor_add_int _ _
  have h3 : ⌊(1 : ℚ) / 2⌋ = 0 := by
    apply Int.floor_eq_zero_iff.mpr
    constructor <;> norm_num
  rw [h2, h3]
  norm_num

/-- `round3 0.4 = 0.4`. -/
theorem round3_04 : round3 0.4 = 0.4 := by
  have h := round3_eq_self (n := 400)
  norm_num at h ⊢
  exact h

/-- `round3 0.94 = 0.94`. -/
theorem round3_094 : round3 0.94 = 0.94 := by
  have h := round3_eq_self (n := 940)
  norm_num at h ⊢
  exact h

/-- `round3 0.95 = 0.95`. -/
theorem round3_095 : round3 0.95 = 0.95 := by
  have h := round3_eq_self (n := 950)
  norm_num at h ⊢
  exact h

/-- Tier 1 yields at most the exact-article confidence. -/
theorem tier1_le (a b : Option Str) : (tier1 a b).1 ≤ 0.95 := by
  unfold tier1
  cases a <;> cases b <;> dsimp only <;>
    first
      | (split_ifs <;> norm_num)
      | norm_num

/-- A rule-loop iteration keeps the confidence at most 0.95. -/
theorem ruleStep_le {sn inv : Str} {b : ℚ × MatchType} {r : NormRule}
    (h : b.1 ≤ 0.95) : (ruleStep sn inv b r).1 ≤ 0.95 := by
  unfold ruleStep
  dsimp only
  split_ifs <;> simp [min_le_right, h]

/-- The whole rule loop keeps the confidence at most 0.95. -/
theorem foldl_ruleStep_le (sn inv : Str) :
    ∀ (rs : List NormRule) (b : ℚ × MatchType), b.1 ≤ 0.95 →
      ((rs.foldl (ruleStep sn inv) b).1 ≤ 0.95) := by
  intro rs
  induction rs with
  | nil => intro b h; exact h
  | cons r t ih => intro b h; exact ih _ (ruleStep_le h)

/-- Tier 2 keeps the confidence at most 0.95. -/
theorem tier2Step_le {sn inv : Str} {rs : List NormRule} {b : ℚ × MatchType}
    (h : b.1 ≤ 0.95) : (tier2Step sn inv rs b).1 ≤ 0.95 := by
  unfold tier2Step
  split_ifs with h1
  · exact foldl_ruleStep_le sn inv rs b h
  · exact h

/-- Tier 3 keeps the confidence at most 0.95. -/
theorem tier3Step_le {sn : Str} {su iu : Option Str} {inv : Str}
    {b : ℚ × MatchType} (h : b.1 ≤ 0.95) :
    (tier3Step sn su iu inv b).1 ≤ 0.95 := by
  unfold tier3Step
  dsimp only
  split_ifs <;> first
    | exact h
    | exact le_trans (min_le_right _ _) (by norm_num)

/-- Tier 4 keeps the confidence at most 0.95. -/
theorem tier4Step_le {sf : Str} {su : Option Str} {sc : Option Str}
    {iu : Option Str} {inv : Str} {b : ℚ × MatchType} (h : b.1 ≤ 0.95) :
    (tier4Step sf su sc iu inv b).1 ≤ 0.95 := by
  unfold tier4Step
  dsimp only
  split_ifs <;> first
    | exact h
    | exact le_trans (min_le_right _ _) (by norm_num)

/-- Every pair score stays at most 0.95. -/
theorem scorePair_le (sn sf : Str) (sc su sch : Option Str)
    (inv : InvoiceItemRow) (invn : Str) (nr : List NormRule) :
    (scorePair sn sf sc su sch inv invn nr).1 ≤ 0.95 :=
  tier4Step_le (tier3Step_le (tier2Step_le (tier1_le sc inv.article)))

/-- Tier 1 respects the fuzzy bound. -/
theorem tier1_fuzzy (a b : Option Str) : FuzzyLe (tier1 a b) := by
  unfold tier1 FuzzyLe
  cases a <;> cases b <;> dsimp only <;>
    first
      | (split_ifs <;> simp <;> norm_num)
      | (intro _; norm_num)

/-- The rule loop respects the fuzzy bound. -/
theorem ruleStep_fuzzy {sn inv : Str} {b : ℚ × MatchType} {r : NormRule}
    (h : FuzzyLe b) : FuzzyLe (ruleStep sn inv b r) := by
  unfold ruleStep FuzzyLe at *
  dsimp only
  split_ifs <;> simp_all

/-- The whole rule loop respects the fuzzy bound. -/
theorem foldl_ruleStep_fuzzy (sn inv : Str) :
    ∀ (rs : List NormRule) (b : ℚ × MatchType), FuzzyLe b →
      FuzzyLe (rs.foldl (ruleStep sn inv) b) := by
  intro rs
  induction rs with
  | nil => intro b h; exact h
  | cons r t ih => intro b h; exact ih _ (ruleStep_fuzzy h)

/-- Tier 2 respects the fuzzy bound. -/
theorem tier2Step_fuzzy {sn inv : Str} {rs : List NormRule}
    {b : ℚ × MatchType} (h : FuzzyLe b) : FuzzyLe (tier2Step sn inv rs b) := by
  unfold tier2Step
  split_ifs
  · exact foldl_ruleStep_fuzzy sn inv rs b h
  · exact h

/-- Tier 3 respects the fuzzy bound. -/
theorem tier3Step_fuzzy {sn : Str} {su iu : Option Str} {inv : Str}
    {b : ℚ × MatchType} (h : FuzzyLe b) :
    FuzzyLe (tier3Step sn su iu inv b) := by
  unfold tier3Step FuzzyLe at *
  dsimp only
  split_ifs <;> simp_all [min_le_right]

/-- Tier 4 respects the fuzzy bound. -/
theorem tier4Step_fuzzy {sf : Str} {su sc iu : Option Str} {inv : Str}
    {b : ℚ × MatchType} (h : FuzzyLe b) :
    FuzzyLe (tier4Step sf su sc iu inv b) := by
  unfold tier4Step FuzzyLe at *
  dsimp only
  split_ifs <;> simp_all [min_le_right]

/-- A fuzzy-labelled pair score is at most 0.94. -/
theorem scorePair_fuzzy (sn sf : Str) (sc su sch : Option Str)
    (inv : InvoiceItemRow) (invn : Str) (nr : List NormRule) :
    FuzzyLe (scorePair sn sf sc su sch inv invn nr) :=
  tier4Step_fuzzy (tier3Step_fuzzy (tier2Step_fuzzy (tier1_fuzzy sc inv.article)))

/-- A present (trimmed) equipment code is non-empty. -/
theorem specCodeOf_ne_nil {spec : SpecItemRow} {code : Str}
    (h : specCodeOf spec = some code) : code ≠ [] := by
  unfold specCodeOf at h
  cases hq : spec.equipment_code with
  | none => rw [hq] at h; cases h
  | some s =>
    rw [hq] at h
    by_cases he : (jsTrim s).isEmpty
    · simp [he] at h
    · simp [he] at h
      rw [← h]
      simpa [List.isEmpty_iff] using he

/-- Insertion keeps the elements (as a permutation). -/
theorem insertDesc_perm (c : MatchCandidate) :
    ∀ (l : List MatchCandidate), (insertDesc c l).Perm (c :: l) := by
  intro l
  induction l with
  | nil => simp [insertDesc]
  | cons d rest ih =>
    unfold insertDesc
    split_ifs
    · exact ((ih.cons d).trans (List.Perm.swap c d rest))
    · exact List.Perm.refl _

/-- The stable sort is a permutation of its input. -/
theorem sortDesc_perm (l : List MatchCandidate) : (sortDesc l).Perm l := by
  induction l with
  | nil => simp [sortDesc]
  | cons c rest ih =>
    have h1 : sortDesc (c :: rest) = insertDesc c (sortDesc rest) := rfl
    rw [h1]
    exact (insertDesc_perm c (sortDesc rest)).trans (ih.cons c)

/-- Insertion preserves descending order. -/
theorem insertDesc_sorted (c : MatchCandidate) :
    ∀ (l : List MatchCandidate),
      l.Pairwise (fun a b => b.confidence ≤ a.confidence) →
      (insertDesc c l).Pairwise (fun a b => b.confidence ≤ a.confidence) := by
  intro l
  induction l with
  | nil => intro _; simp [insertDesc]
  | cons d rest ih =>
    intro h
    rw [List.pairwise_cons] at h
    obtain ⟨hd, hrest⟩ := h
    unfold insertDesc
    split_ifs with hc
    · rw [List.pairwise_cons]
      refine ⟨?_, ih hrest⟩
      intro b hb
      rcases List.mem_cons.mp ((insertDesc_perm c rest).mem_iff.mp hb)
        with h' | h'
      · subst h'; linarith
      · exact hd b h'
    · rw [List.pairwise_cons]
      refine ⟨?_, ?_⟩
      · intro b hb
        rcases List.mem_cons.mp hb with h' | h'
        · subst h'; linarith
        · have := hd b h'; linarith
      · rw [List.pairwise_cons]
        exact ⟨hd, hrest⟩

/-- The stable sort orders candidates by descending confidence. -/
theorem sortDesc_sorted (l : List MatchCandidate) :
    (sortDesc l).Pairwise (fun a b => b.confidence ≤ a.confidence) := by
  induction l with
  | nil => simp [sortDesc]
  | cons c rest ih => exact insertDesc_sorted c (sortDesc rest) ih

/-- The one-step equation of `insertDesc` on a cons cell. -/
theorem insertDesc_cons (c d : MatchCandidate) (rest : List MatchCandidate) :
    insertDesc c (d :: rest) =
      if c.confidence < d.confidence then d :: insertDesc c rest
      else c :: d :: rest := rfl

/-- Inserting into `v ++ (b :: w)` either leaves the marked suffix `b :: w`
intact or inserts past the marked `b`, into `w`. -/
theorem insertDesc_split (c : MatchCandidate) :
    ∀ (v : List MatchCandidate) (b : MatchCandidate) (w : List MatchCandidate),
      (∃ v', insertDesc c (v ++ (b :: w)) = v' ++ (b :: w)) ∨
      insertDesc c (v ++ (b :: w)) = v ++ (b :: insertDesc c w) := by
  intro v b w
  induction v with
  | nil =>
    rw [List.nil_append, List.nil_append, insertDesc_cons]
    split_ifs with hc
    · exact Or.inr rfl
    · exact Or.inl ⟨[c], rfl⟩
  | cons d v0 ih =>
    rw [List.cons_append, List.cons_append, insertDesc_cons]
    split_ifs with hc
    · rcases ih with ⟨v', hv⟩ | hv
      · left
        refine ⟨d :: v', ?_⟩
        rw [hv, List.cons_append]
      · right
        rw [hv]
    · left; exact ⟨c :: d :: v0, rfl⟩

/-- Insertion keeps a marked element marked: the result still decomposes
around the same occurrence of `b`. -/
theorem insertDesc_keeps (c : MatchCandidate) (v : List MatchCandidate)
    (b : MatchCandidate) (w : List MatchCandidate) :
    ∃ v' w', insertDesc c (v ++ (b :: w)) = v' ++ (b :: w') := by
  rcases insertDesc_split c v b w with ⟨v', hv⟩ | hv
  · exact ⟨v', w, hv⟩
  · exact ⟨v, insertDesc c w, hv⟩

/-- Insertion preserves the relative order of two marked elements. -/
theorem insertDesc_pres (c : MatchCandidate) (u : List MatchCandidate)
    (a : MatchCandidate) (v : List MatchCandidate) (b : MatchCandidate)
    (w : List MatchCandidate) :
    ∃ u' v' w',
      insertDesc c (u ++ (a :: (v ++ (b :: w)))) =
        u' ++ (a :: (v' ++ (b :: w'))) := by
  rcases insertDesc_split c u a (v ++ (b :: w)) with ⟨u', hu⟩ | hu
  · exact ⟨u', v, w, hu⟩
  · obtain ⟨v', w', hv⟩ := insertDesc_keeps c v b w
    refine ⟨u, v', w', ?_⟩
    rw [hu, hv]

/-- When the new element's confidence is at least the marked one's, insertion
places it strictly before the marked element. -/
theorem insertDesc_before (a b : MatchCandidate)
    (hba : b.confidence ≤ a.confidence) :
    ∀ (m1 m2 : List MatchCandidate),
      ∃ n1 n2 n3,
        insertDesc a (m1 ++ (b :: m2)) = n1 ++ (a :: (n2 ++ (b :: n3))) := by
  intro m1
  induction m1 with
  | nil =>
    intro m2
    rw [List.nil_append, insertDesc_cons, if_neg (not_lt.mpr hba)]
    exact ⟨[], [], m2, rfl⟩
  | cons d m1' ih =>
    intro m2
    rw [List.cons_append, insertDesc_cons]
    split_ifs with hc
    · obtain ⟨n1, n2, n3, hn⟩ := ih m2
      refine ⟨d :: n1, n2, n3, ?_⟩
      rw [hn, List.cons_append]
    · exact ⟨[], d :: m1', m2, rfl⟩

/-- Stability of `sortDesc`: whenever `a` precedes `b` in the input and
`b`'s confidence does not exceed `a`'s (in particular on ties), `a` still
precedes `b` in the sorted output — the tie-break of the stable JS sort. -/
theorem sortDesc_stable (a b : MatchCandidate)
    (hba : b.confidence ≤ a.confidence) :
    ∀ (l1 l2 l3 : List MatchCandidate),
      ∃ m1 m2 m3,
        sortDesc (l1 ++ (a :: (l2 ++ (b :: l3)))) =
          m1 ++ (a :: (m2 ++ (b :: m3))) := by
  intro l1
  induction l1 with
  | nil =>
    intro l2 l3
    rw [List.nil_append]
    have h1 : sortDesc (a :: (l2 ++ (b :: l3))) =
        insertDesc a (sortDesc (l2 ++ (b :: l3))) := rfl
    rw [h1]
    have hb : b ∈ sortDesc (l2 ++ (b :: l3)) :=
      (sortDesc_perm _).mem_iff.mpr (by simp)
    obtain ⟨s, t, hst⟩ := List.append_of_mem hb
    rw [hst]
    exact insertDesc_before a b hba s t
  | cons c l1' ih =>
    intro l2 l3
    rw [List.cons_append]
    have h1 : sortDesc (c :: (l1' ++ (a :: (l2 ++ (b :: l3))))) =
        insertDesc c (sortDesc (l1' ++ (a :: (l2 ++ (b :: l3))))) := rfl
    rw [h1]
    obtain ⟨m1, m2, m3, hm⟩ := ih l2 l3
    rw [hm]
    exact insertDesc_pres c m1 a m2 b m3

/-- Membership in a spec item's candidate list, unfolded. -/
theorem mem_candidatesFor {c : MatchCandidate} {spec : SpecItemRow}
    {NI : List (InvoiceItemRow × Str)} {NR : List NormRule}
    (h : c ∈ candidatesFor spec NI NR) :
    ∃ p ∈ NI,
      0.4 ≤ (specScore spec p NR).1 ∧
      c = ⟨spec.id, p.1.id, round3 (specScore spec p NR).1,
        (specScore spec p NR).2⟩ := by
  unfold candidatesFor at h
  rw [List.mem_filterMap] at h
  obtain ⟨p, hp, hc⟩ := h
  dsimp only at hc
  refine ⟨p, hp, ?_⟩
  by_cases hge : (specScore spec p NR).1 ≥ 0.4
  · rw [if_pos hge] at hc
    injection hc with hc
    exact ⟨hge, hc.symm⟩
  · rw [if_neg hge] at hc
    cases hc

/-- Every candidate a spec item contributes carries that spec item's id. -/
theorem candidatesFor_specId {c : MatchCandidate} {spec : SpecItemRow}
    {NI : List (InvoiceItemRow × Str)} {NR : List NormRule}
    (h : c ∈ candidatesFor spec NI NR) : c.specItemId = spec.id := by
  obtain ⟨p, -, -, hc⟩ := mem_candidatesFor h
  rw [hc]

/-- Members of a group come from the candidate list. -/
theorem mem_groupOf {c : MatchCandidate} {spec : SpecItemRow}
    {NI : List (InvoiceItemRow × Str)} {NR : List NormRule}
    (h : c ∈ groupOf spec NI NR) : c ∈ candidatesFor spec NI NR := by
  unfold groupOf at h
  exact (sortDesc_perm _).mem_iff.mp (List.mem_of_mem_take h)

/-- A group keeps its own spec id under the output filter. -/
theorem filter_groupOf_self {spec : SpecItemRow}
    {NI : List (InvoiceItemRow × Str)} {NR : List NormRule} :
    (groupOf spec NI NR).filter (fun c => c.specItemId == spec.id) =
      groupOf spec NI NR := by
  apply List.filter_eq_self.mpr
  intro c hc
  have h := candidatesFor_specId (mem_groupOf hc)
  simp [h]

/-- A group vanishes under another spec item's filter. -/
theorem filter_groupOf_ne {spec : SpecItemRow}
    {NI : List (InvoiceItemRow × Str)} {NR : List NormRule} {sid : ℕ}
    (hne : spec.id ≠ sid) :
    (groupOf spec NI NR).filter (fun c => c.specItemId == sid) = [] := by
  rw [List.filter_eq_nil_iff]
  intro c hc
  have h := candidatesFor_specId (mem_groupOf hc)
  simp [h, hne]

/-- Groups of spec items with other ids vanish under the filter. -/
theorem filter_flatten_nil {rest : List SpecItemRow}
    {NI : List (InvoiceItemRow × Str)} {NR : List NormRule} {sid : ℕ}
    (h : ∀ s' ∈ rest, s'.id ≠ sid) :
    ((rest.map fun s => groupOf s NI NR).flatten.filter
      (fun c => c.specItemId == sid)) = [] := by
  rw [List.filter_eq_nil_iff]
  intro c hc
  obtain ⟨l, hl, hcl⟩ := List.mem_flatten.mp hc
  obtain ⟨s', hs', rfl⟩ := List.mem_map.mp hl
  have hid := candidatesFor_specId (mem_groupOf hcl)
  simp [hid, h s' hs']

/-- With unique spec ids, the output filter recovers exactly one group. -/
theorem filter_flatten_group : ∀ (specs : List SpecItemRow)
    (NI : List (InvoiceItemRow × Str)) (NR : List NormRule),
    ((specs.map fun s => s.id).Nodup) → ∀ spec ∈ specs,
    ((specs.map fun s => groupOf s NI NR).flatten.filter
      (fun c => c.specItemId == spec.id)) = groupOf spec NI NR := by
  intro specs NI NR
  induction specs with
  | nil => intro _ spec h; cases h
  | cons s rest ih =>
    intro hnd spec hmem
    rw [List.map_cons, List.flatten_cons, List.filter_append]
    rw [List.map_cons, List.nodup_cons] at hnd
    obtain ⟨hnot, hnd'⟩ := hnd
    rcases List.mem_cons.mp hmem with h | h
    · subst h
      rw [filter_groupOf_self]
      rw [filter_flatten_nil fun s' hs' he =>
        hnot (by rw [← he]; exact List.mem_map_of_mem _ hs')]
      rw [List.append_nil]
    · have hne : s.id ≠ spec.id := fun he =>
        hnot (by rw [he]; exact List.mem_map_of_mem _ h)
      rw [filter_groupOf_ne hne, List.nil_append]
      exact ih hnd' spec h

/-- With unique spec ids, at most three candidates per spec id survive. -/
theorem filter_flatten_len : ∀ (specs : List SpecItemRow)
    (NI : List (InvoiceItemRow × Str)) (NR : List NormRule),
    ((specs.map fun s => s.id).Nodup) → ∀ sid : ℕ,
    ((specs.map fun s => groupOf s NI NR).flatten.filter
      (fun c => c.specItemId == sid)).length ≤ 3 := by
  intro specs NI NR
  induction specs with
  | nil => intro _ sid; simp
  | cons s rest ih =>
    intro hnd sid
    rw [List.map_cons, List.flatten_cons, List.filter_append,
      List.length_append]
    rw [List.map_cons, List.nodup_cons] at hnd
    obtain ⟨hnot, hnd'⟩ := hnd
    by_cases hsid : s.id = sid
    · have h1 : ((groupOf s NI NR).filter
          (fun c => c.specItemId == sid)).length ≤ 3 := by
        have hf := List.length_filter_le
          (fun c => c.specItemId == sid) (groupOf s NI NR)
        have ht : (groupOf s NI NR).length ≤ 3 := by
          unfold groupOf
          have := List.length_take 3 (sortDesc (candidatesFor s NI NR))
          omega
        omega
      have h2 : ((rest.map fun s => groupOf s NI NR).flatten.filter
          (fun c => c.specItemId == sid)) = [] := by
        apply filter_flatten_nil
        intro s' hs' he
        apply hnot
        rw [hsid, ← he]
        exact List.mem_map_of_mem _ hs'
      rw [h2]
      simpa using h1
    · rw [filter_groupOf_ne hsid, List.length_nil]
      simpa using ih hnd' sid

/--
C1.  For every project input, every candidate `runMatching` (matcher service
lines 68–194) returns has confidence between 0.4 and 1.0 inclusive and is an
exact multiple of 0.001 (rounded to 3 decimal places); per specification
item (ids assumed unique, as database primary keys are) at most the top 3
candidates by confidence are returned: the output restricted to one spec
item is exactly the 3-prefix of the stable descending sort — `sortDesc` is a
permutation sorted by descending confidence, and it is stable: whenever `a`
precedes `b` in the evaluation-order input and `b`'s confidence is at most
`a`'s (so in particular on ties), `a` still precedes `b` in the sorted
output, i.e. ties are broken by evaluation order.
-/
theorem runMatching_bounds_top3 (specs : List SpecItemRow)
    (invs : List InvoiceItemRow) (rules : List MatchingRuleRow)
    (hnd : (specs.map fun s => s.id).Nodup) :
    (∀ c ∈ runMatching specs invs rules,
      0.4 ≤ c.confidence ∧ c.confidence ≤ 1 ∧
      ∃ n : ℤ, c.confidence = (n : ℚ) / 1000) ∧
    (∀ sid : ℕ, ((runMatching specs invs rules).filter
      (fun c => c.specItemId == sid)).length ≤ 3) ∧
    (∀ spec ∈ specs, (runMatching specs invs rules).filter
      (fun c => c.specItemId == spec.id) =
        groupOf spec (normInvoice invs) (normRulesOf rules)) ∧
    (∀ l : List MatchCandidate, (sortDesc l).Perm l ∧
      (sortDesc l).Pairwise fun a b => b.confidence ≤ a.confidence) ∧
    (∀ (a b : MatchCandidate) (l1 l2 l3 : List MatchCandidate),
      b.confidence ≤ a.confidence →
      ∃ m1 m2 m3,
        sortDesc (l1 ++ (a :: (l2 ++ (b :: l3)))) =
          m1 ++ (a :: (m2 ++ (b :: m3)))) := by
  by_cases hemp : (specs.isEmpty || invs.isEmpty) = true
  · have hrm : runMatching specs invs rules = [] := by
      unfold runMatching
      rw [if_pos hemp]
    refine ⟨by simp [hrm], by simp [hrm], ?_,
      fun l => ⟨sortDesc_perm l, sortDesc_sorted l⟩,
      fun a b l1 l2 l3 hba => sortDesc_stable a b hba l1 l2 l3⟩
    intro spec hspec
    rw [hrm]
    cases hs : specs.isEmpty with
    | true =>
      rw [List.isEmpty_iff] at hs
      subst hs
      cases hspec
    | false =>
      rw [hs] at hemp
      simp only [Bool.false_or] at hemp
      rw [List.isEmpty_iff] at hemp
      subst hemp
      simp [groupOf, candidatesFor, normInvoice, sortDesc]
  · have hrm : runMatching specs invs rules =
        (specs.map fun s =>
          groupOf s (normInvoice invs) (normRulesOf rules)).flatten := by
      unfold runMatching
      rw [if_neg hemp]
      rfl
    refine ⟨?_, ?_, ?_, fun l => ⟨sortDesc_perm l, sortDesc_sorted l⟩,
      fun a b l1 l2 l3 hba => sortDesc_stable a b hba l1 l2 l3⟩
    · intro c hc
      rw [hrm] at hc
      obtain ⟨l, hl, hcl⟩ := List.mem_flatten.mp hc
      obtain ⟨spec, hspec, rfl⟩ := List.mem_map.mp hl
      obtain ⟨p, hp, hge, hceq⟩ := mem_candidatesFor (mem_groupOf hcl)
      have hle : (specScore spec p (normRulesOf rules)).1 ≤ 0.95 := by
        unfold specScore
        exact scorePair_le _ _ _ _ _ _ _ _
      rw [hceq]
      dsimp only
      refine ⟨?_, ?_, ⟨⌊(specScore spec p (normRulesOf rules)).1 * 1000 + 1 / 2⌋, rfl⟩⟩
      · have h1 := round3_mono hge
        rw [round3_04] at h1
        exact h1
      · have h1 := round3_mono hle
        rw [round3_095] at h1
        linarith
    · intro sid
      rw [hrm]
      exact filter_flatten_len specs _ _ hnd sid
    · intro spec hspec
      rw [hrm]
      exact filter_flatten_group specs _ _ hnd spec hspec

/-- Witness for C1 at a concrete one-item project. -/
theorem runMatching_bounds_top3_witness :
    ((runMatching [spA] [ivA] []).filter
      (fun c => c.specItemId == 1)).length ≤ 3 :=
  (runMatching_bounds_top3 [spA] [ivA] [] (by simp)).2.1 1

/--
C2.  In the matching engine: a pair whose (present) trimmed equipment code
and (present) invoice article agree case-insensitively scores
`(0.95, exact_article)` — and rounding keeps 0.95 exactly; a pair whose
final label is `name_similarity` or `name_characteristics` (the fuzzy tiers,
unit bonus included) has confidence capped at 0.94, also after rounding, and
`0.94 < 0.95`, so an exact-article candidate always outranks a same-pair
fuzzy candidate.
-/
theorem exactArticle_beats_fuzzy (spec : SpecItemRow) (code : Str)
    (sn sf : Str) (su sch : Option Str) (inv : InvoiceItemRow)
    (invn : Str) (nr : List NormRule) (art : Str) :
    (specCodeOf spec = some code → inv.article = some art →
      art.isEmpty = false → lowerStr code = lowerStr (jsTrim art) →
      scorePair sn sf (specCodeOf spec) su sch inv invn nr =
        (0.95, .exact_article) ∧ round3 (0.95 : ℚ) = 0.95) ∧
    ((scorePair sn sf (specCodeOf spec) su sch inv invn nr).2 =
        MatchType.name_similarity ∨
     (scorePair sn sf (specCodeOf spec) su sch inv invn nr).2 =
        MatchType.name_characteristics →
      (scorePair sn sf (specCodeOf spec) su sch inv invn nr).1 ≤ 0.94 ∧
      round3 (scorePair sn sf (specCodeOf spec) su sch inv invn nr).1 ≤ 0.94) ∧
    (0.94 : ℚ) < 0.95 := by
  refine ⟨?_, ?_, by norm_num⟩
  · intro hcode hart hane hlow
    have hcne : code ≠ [] := specCodeOf_ne_nil hcode
    have ht1 : tier1 (specCodeOf spec) inv.article = (0.95, .exact_article) := by
      rw [hcode, hart]
      unfold tier1
      dsimp only
      rw [if_pos (by simp [hane]), if_pos ⟨hlow, by
        cases code with
        | nil => exact absurd rfl hcne
        | cons a t => simp⟩]
    refine ⟨?_, round3_095⟩
    unfold scorePair
    rw [ht1]
    have h2 : tier2Step sn invn nr ((0.95 : ℚ), MatchType.exact_article) =
        ((0.95 : ℚ), MatchType.exact_article) := by
      unfold tier2Step
      rw [if_neg (by norm_num)]
    have h3 : tier3Step sn su inv.unit invn
        ((0.95 : ℚ), MatchType.exact_article) =
        ((0.95 : ℚ), MatchType.exact_article) := by
      unfold tier3Step
      rw [if_neg (by norm_num)]
    rw [h2, h3]
    unfold tier4Step
    rw [if_neg fun hcon => absurd hcon.1 (by norm_num)]
  · intro hty
    have hle := scorePair_fuzzy sn sf (specCodeOf spec) su sch inv invn nr hty
    refine ⟨hle, ?_⟩
    have h1 := round3_mono hle
    rw [round3_094] at h1
    exact h1

/-- Witness for C2 at the concrete `A1` pair. -/
theorem exactArticle_beats_fuzzy_witness :
    scorePair (str "кабель") (str "кабель") (specCodeOf spA) none none ivA
      (str "кабель") [] = (0.95, .exact_article) :=
  ((exactArticle_beats_fuzzy spA (str "A1") (str "кабель") (str "кабель")
    none none ivA (str "кабель") [] (str "A1")).1
    (by decide) (by decide) (by decide) (by decide)).1

/-! ### Supporting lemmas: selection flags in the matching routes -/

/-- Under a `Nodup` id column, a row is determined by its id. -/
theorem matched_eq_of_id {rows : List MatchedRow} {x m : MatchedRow}
    (hnd : (rows.map fun r => r.id).Nodup) (hx : x ∈ rows) (hm : m ∈ rows)
    (h : x.id = m.id) : x = m :=
  List.inj_on_of_nodup_map hnd hx hm h

/-- Under a `Nodup` id column, exactly one row carries a member's id. -/
theorem countP_id_eq_one {rows : List MatchedRow} {m : MatchedRow}
    (hnd : (rows.map fun r => r.id).Nodup) (hm : m ∈ rows) :
    rows.countP (fun x => x.id == m.id) = 1 := by
  obtain ⟨l1, l2, hdecomp⟩ := List.append_of_mem hm
  subst hdecomp
  rw [List.map_append, List.map_cons, List.nodup_append] at hnd
  obtain ⟨-, hnd2, hdisj⟩ := hnd
  rw [List.nodup_cons] at hnd2
  rw [List.countP_append, List.countP_cons]
  have h1 : l1.countP (fun x => x.id == m.id) = 0 := by
    rw [List.countP_eq_zero]
    intro x hx hbeq
    have hxe : x.id = m.id := by simpa using hbeq
    exact hdisj (List.mem_map_of_mem _ hx) (by simp [hxe])
  have h2 : l2.countP (fun x => x.id == m.id) = 0 := by
    rw [List.countP_eq_zero]
    intro x hx hbeq
    have hxe : x.id = m.id := by simpa using hbeq
    exact hnd2.1 (by rw [← hxe]; exact List.mem_map_of_mem _ hx)
  simp [h1, h2]

/-- Effect of "deselect the whole spec item, then select (and possibly
confirm) one existing row of it" on the per-spec selected count: the spec
item ends with exactly one selected row, every other spec item is
untouched. -/
theorem deselect_select_count (rows : List MatchedRow) (mid s0 : ℕ)
    (f2t : MatchedRow → MatchedRow)
    (hf2_spec : ∀ x, (f2t x).specification_item_id = x.specification_item_id)
    (hf2_sel : ∀ x, (f2t x).is_selected = true)
    (hnd : (rows.map fun r => r.id).Nodup)
    (m : MatchedRow) (hm : m ∈ rows) (hmid : m.id = mid)
    (hs : m.specification_item_id = s0) :
    selectedCount s0 ((rows.map fun x =>
        if x.specification_item_id = s0 then { x with is_selected := false }
        else x).map fun x => if x.id = mid then f2t x else x) = 1 ∧
    ∀ s, s ≠ s0 →
      selectedCount s ((rows.map fun x =>
        if x.specification_item_id = s0 then { x with is_selected := false }
        else x).map fun x => if x.id = mid then f2t x else x) =
      selectedCount s rows := by
  obtain ⟨l1, l2, hdecomp⟩ := List.append_of_mem hm
  subst hdecomp
  have hnd' := hnd
  rw [List.map_append, List.map_cons, List.nodup_append] at hnd'
  obtain ⟨-, hnd2, hdisj⟩ := hnd'
  rw [List.nodup_cons] at hnd2
  have hne_l1 : ∀ x ∈ l1, x.id ≠ mid := by
    intro x hx he
    exact hdisj (List.mem_map_of_mem _ hx) (by simp [he, ← hmid])
  have hne_l2 : ∀ x ∈ l2, x.id ≠ mid := by
    intro x hx he
    exact hnd2.1 (by rw [hmid, ← he]; exact List.mem_map_of_mem _ hx)
  -- value of the middle row after both updates
  have hmidrow : (if (if m.specification_item_id = s0 then
        ({ m with is_selected := false } : MatchedRow) else m).id = mid then
      f2t (if m.specification_item_id = s0 then
        { m with is_selected := false } else m)
    else (if m.specification_item_id = s0 then
        { m with is_selected := false } else m)) =
      f2t { m with is_selected := false } := by
    rw [if_pos hs,
      if_pos (show ({ m with is_selected := false } : MatchedRow).id = mid
        from hmid)]
  -- value of any other row after both updates
  have hother : ∀ x : MatchedRow, x.id ≠ mid →
      (if (if x.specification_item_id = s0 then
            ({ x with is_selected := false } : MatchedRow) else x).id = mid
        then f2t (if x.specification_item_id = s0 then
            { x with is_selected := false } else x)
        else (if x.specification_item_id = s0 then
            { x with is_selected := false } else x)) =
      (if x.specification_item_id = s0 then { x with is_selected := false }
        else x) := by
    intro x hx
    have hid : ((if x.specification_item_id = s0 then
        ({ x with is_selected := false } : MatchedRow) else x)).id = x.id := by
      split_ifs <;> rfl
    rw [if_neg (by rw [hid]; exact hx)]
  simp only [selectedCount, List.map_append, List.map_cons,
    List.countP_append, List.countP_cons, hmidrow]
  have hspec_mid : (f2t { m with is_selected := false
      }).specification_item_id = s0 := by
    rw [hf2_spec]; exact hs
  constructor
  · have hz1 : ((l1.map fun x : MatchedRow =>
        if x.specification_item_id = s0 then { x with is_selected := false }
        else x).map fun x => if x.id = mid then f2t x else x).countP
        (fun r => (r.specification_item_id == s0 && r.is_selected : Bool))
          = 0 := by
      rw [List.countP_eq_zero]
      intro y hy
      rw [List.mem_map] at hy
      obtain ⟨z, hz, rfl⟩ := hy
      rw [List.mem_map] at hz
      obtain ⟨x, hx, rfl⟩ := hz
      rw [hother x (hne_l1 x hx)]
      by_cases hsp : x.specification_item_id = s0
      · rw [if_pos hsp]; simp
      · rw [if_neg hsp]; simp [hsp]
    have hz2 : ((l2.map fun x : MatchedRow =>
        if x.specification_item_id = s0 then { x with is_selected := false }
        else x).map fun x => if x.id = mid then f2t x else x).countP
        (fun r => (r.specification_item_id == s0 && r.is_selected : Bool))
          = 0 := by
      rw [List.countP_eq_zero]
      intro y hy
      rw [List.mem_map] at hy
      obtain ⟨z, hz, rfl⟩ := hy
      rw [List.mem_map] at hz
      obtain ⟨x, hx, rfl⟩ := hz
      rw [hother x (hne_l2 x hx)]
      by_cases hsp : x.specification_item_id = s0
      · rw [if_pos hsp]; simp
      · rw [if_neg hsp]; simp [hsp]
    rw [hz1, hz2]
    simp [hspec_mid, hf2_sel]
  · intro s hsne
    have hcount : ∀ l : List MatchedRow, (∀ x ∈ l, x.id ≠ mid) →
        ((l.map fun x : MatchedRow =>
          if x.specification_item_id = s0 then { x with is_selected := false }
          else x).map fun x => if x.id = mid then f2t x else x).countP
          (fun r => (r.specification_item_id == s && r.is_selected : Bool)) =
        l.countP
          (fun r => (r.specification_item_id == s && r.is_selected : Bool))
        := by
      intro l hl
      rw [List.countP_map, List.countP_map]
      apply List.countP_congr
      intro x hx
      simp only [Function.comp]
      rw [hother x (hl x hx)]
      by_cases hsp : x.specification_item_id = s0
      · rw [if_pos hsp]
        simp [hsp, Ne.symm hsne]
      · rw [if_neg hsp]
    rw [hcount l1 hne_l1, hcount l2 hne_l2]
    simp [hspec_mid, Ne.symm hsne, hs]
    intro hcon
    rw [hf2_spec] at hcon
    exact absurd hcon.symm hsne

/-- `dedupFirst.go` produces a duplicate-free list avoiding `seen`. -/
theorem dedupFirst_go_nodup : ∀ (l seen : List ℕ),
    (dedupFirst.go seen l).Nodup ∧ ∀ a ∈ dedupFirst.go seen l, a ∉ seen := by
  intro l
  induction l with
  | nil => intro seen; simp [dedupFirst.go]
  | cons a rest ih =>
    intro seen
    have hstep : dedupFirst.go seen (a :: rest) =
        if seen.contains a = true then dedupFirst.go seen rest
        else a :: dedupFirst.go (a :: seen) rest := rfl
    by_cases ha : seen.contains a = true
    · rw [hstep, if_pos ha]
      exact ih seen
    · rw [hstep, if_neg ha]
      obtain ⟨hnd, hmem⟩ := ih (a :: seen)
      refine ⟨?_, ?_⟩
      · rw [List.nodup_cons]
        exact ⟨fun hc => (hmem a hc) (by simp), hnd⟩
      · intro b hb hbs
        rcases List.mem_cons.mp hb with h | h
        · subst h
          exact ha (by simpa using hbs)
        · exact (hmem b h) (by simp [hbs])

/-- `dedupFirst` produces a duplicate-free list. -/
theorem dedupFirst_nodup (l : List ℕ) : (dedupFirst l).Nodup :=
  (dedupFirst_go_nodup l []).1

/-- The best-candidate fold yields the accumulator or a list member. -/
theorem foldl_pickf_mem : ∀ (l : List MatchedRow) (acc : Option MatchedRow)
    (b : MatchedRow),
    l.foldl (fun acc r =>
      match acc with
      | none => some r
      | some b => if r.confidence > b.confidence then some r else some b)
      acc = some b →
    acc = some b ∨ b ∈ l := by
  intro l
  induction l with
  | nil => intro acc b h; exact Or.inl h
  | cons r t ih =>
    intro acc b h
    rw [List.foldl_cons] at h
    rcases ih _ b h with h' | h'
    · cases acc with
      | none =>
        simp only at h'
        injection h' with h'
        exact Or.inr (by simp [h'])
      | some x =>
        simp only at h'
        split_ifs at h' with hc
        · injection h' with h'
          exact Or.inr (by simp [h'])
        · injection h' with h'
          exact Or.inl (by rw [h'])
    · exact Or.inr (List.mem_cons_of_mem _ h')

/-- What a successful `selectBest` subquery pick means: the picked id
belongs to an unconfirmed row of the requested spec item. -/
theorem pickBestId_spec {s tid : ℕ} {rows : List MatchedRow}
    (h : pickBestId s rows = some tid) :
    ∃ r ∈ rows, r.id = tid ∧ r.specification_item_id = s ∧
      r.is_confirmed = false := by
  unfold pickBestId at h
  rw [Option.map_eq_some'] at h
  obtain ⟨r, hfold, hid⟩ := h
  rcases foldl_pickf_mem _ none r hfold with h' | h'
  · cases h'
  · rw [List.mem_filter] at h'
    obtain ⟨hmem, hpred⟩ := h'
    rw [Bool.and_eq_true] at hpred
    refine ⟨r, hmem, hid, by simpa using hpred.1, by simpa using hpred.2⟩

/-- `applySelect` keeps the id column. -/
theorem applySelect_ids (tid : ℕ) (rows : List MatchedRow) :
    (applySelect tid rows).map (fun r => r.id) = rows.map fun r => r.id := by
  unfold applySelect
  rw [List.map_map]
  apply List.map_congr_left
  intro x _
  simp only [Function.comp]
  split_ifs <;> rfl

/-- An id-keyed row update touches no row whose id differs. -/
theorem matched_map_update_id {f : MatchedRow → MatchedRow}
    {l : List MatchedRow} {tid : ℕ} (h : ∀ x ∈ l, x.id ≠ tid) :
    (l.map fun x => if x.id = tid then f x else x) = l := by
  induction l with
  | nil => rfl
  | cons a t ih =>
    rw [List.map_cons, if_neg (h a (by simp)),
      ih fun x hx => h x (by simp [hx])]

/-- Effect of one `selectBest` update on per-spec selected-unconfirmed
counts. -/
theorem applySelect_count (rows : List MatchedRow) (tid s : ℕ)
    (hnd : (rows.map fun r => r.id).Nodup) (r : MatchedRow)
    (hr : r ∈ rows) (hrid : r.id = tid) :
    (s ≠ r.specification_item_id →
      selectedUnconfirmedCount s (applySelect tid rows) =
        selectedUnconfirmedCount s rows) ∧
    selectedUnconfirmedCount r.specification_item_id (applySelect tid rows) ≤
      selectedUnconfirmedCount r.specification_item_id rows + 1 := by
  obtain ⟨l1, l2, hdecomp⟩ := List.append_of_mem hr
  subst hdecomp
  have hnd' := hnd
  rw [List.map_append, List.map_cons, List.nodup_append] at hnd'
  obtain ⟨-, hnd2, hdisj⟩ := hnd'
  rw [List.nodup_cons] at hnd2
  have hne_l1 : ∀ x ∈ l1, x.id ≠ tid := by
    intro x hx he
    exact hdisj (List.mem_map_of_mem _ hx) (by simp [he, ← hrid])
  have hne_l2 : ∀ x ∈ l2, x.id ≠ tid := by
    intro x hx he
    exact hnd2.1 (by rw [hrid, ← he]; exact List.mem_map_of_mem _ hx)
  unfold applySelect selectedUnconfirmedCount
  simp only [List.map_append, List.map_cons, List.countP_append,
    List.countP_cons]
  rw [matched_map_update_id hne_l1, matched_map_update_id hne_l2, if_pos hrid]
  constructor
  · intro hsne
    have hmid : ((({ r with is_selected := true } : MatchedRow
        ).specification_item_id == s && ({ r with is_selected := true } :
        MatchedRow).is_selected && !({ r with is_selected := true } :
        MatchedRow).is_confirmed) : Bool) = false := by
      simp [Ne.symm hsne]
    have hrp : ((r.specification_item_id == s && r.is_selected &&
        !r.is_confirmed) : Bool) = false := by
      simp [Ne.symm hsne]
    rw [hmid, hrp]
  · have h1 : (if ((({ r with is_selected := true } : MatchedRow
        ).specification_item_id == r.specification_item_id &&
        ({ r with is_selected := true } : MatchedRow).is_selected &&
        !({ r with is_selected := true } : MatchedRow).is_confirmed) : Bool)
        = true then 1 else 0) ≤ 1 := by
      split_ifs <;> omega
    have h2 : (0 : ℕ) ≤ (if ((r.specification_item_id ==
        r.specification_item_id && r.is_selected && !r.is_confirmed) : Bool)
        = true then 1 else 0) := Nat.zero_le _
    omega

/-- After the whole auto-select loop over distinct spec ids, each spec
item's selected-unconfirmed count grows by at most one. -/
theorem selectPhase_count : ∀ (T : List ℕ) (rows : List MatchedRow),
    ((rows.map fun r => r.id).Nodup) → T.Nodup → ∀ s : ℕ,
    selectedUnconfirmedCount s (selectPhase T rows) ≤
      selectedUnconfirmedCount s rows + (if s ∈ T then 1 else 0) := by
  intro T
  induction T with
  | nil => intro rows _ _ s; simp [selectPhase]
  | cons t T' ih =>
    intro rows hnd hTnd s
    rw [List.nodup_cons] at hTnd
    have hstep : selectPhase (t :: T') rows = selectPhase T'
        (match pickBestId t rows with
         | some tid => applySelect tid rows
         | none => rows) := rfl
    rw [hstep]
    cases hpick : pickBestId t rows with
    | none =>
      refine le_trans (ih rows hnd hTnd.2 s) ?_
      have hmono : (if s ∈ T' then 1 else 0) ≤
          (if s ∈ t :: T' then (1 : ℕ) else 0) := by
        split_ifs with h1 h2 <;> simp_all
      omega
    | some tid =>
      obtain ⟨r, hr, hrid, hrspec, hrconf⟩ := pickBestId_spec hpick
      have hnd2 : ((applySelect tid rows).map fun r => r.id).Nodup := by
        rw [applySelect_ids]; exact hnd
      have hbound := ih (applySelect tid rows) hnd2 hTnd.2 s
      by_cases hst : s = r.specification_item_id
      · have hs_t : s = t := by rw [hst, hrspec]
        have hnotT' : s ∉ T' := by rw [hs_t]; exact hTnd.1
        have h2 := (applySelect_count rows tid s hnd r hr hrid).2
        rw [← hst] at h2
        have hmem : s ∈ t :: T' := by simp [hs_t]
        simp only [hnotT', if_false, hmem, if_true] at hbound ⊢
        omega
      · have h1 := (applySelect_count rows tid s hnd r hr hrid).1 hst
        rw [h1] at hbound
        refine le_trans hbound ?_
        have hmono : (if s ∈ T' then 1 else 0) ≤
            (if s ∈ t :: T' then (1 : ℕ) else 0) := by
          split_ifs with h1' h2' <;> simp_all
        omega

/-- The auto-select loop never touches a confirmed row. -/
theorem selectPhase_preserves_confirmed : ∀ (T : List ℕ)
    (rows : List MatchedRow), ((rows.map fun r => r.id).Nodup) →
    ∀ m ∈ rows, m.is_confirmed = true → m ∈ selectPhase T rows := by
  intro T
  induction T with
  | nil => intro rows _ m hm _; exact hm
  | cons t T' ih =>
    intro rows hnd m hm hconf
    have hstep : selectPhase (t :: T') rows = selectPhase T'
        (match pickBestId t rows with
         | some tid => applySelect tid rows
         | none => rows) := rfl
    rw [hstep]
    cases hpick : pickBestId t rows with
    | none => exact ih rows hnd m hm hconf
    | some tid =>
      obtain ⟨r, hr, hrid, -, hrconf⟩ := pickBestId_spec hpick
      have hnd2 : ((applySelect tid rows).map fun x => x.id).Nodup := by
        rw [applySelect_ids]; exact hnd
      have hmne : m.id ≠ tid := by
        intro he
        have : m = r := matched_eq_of_id hnd hm hr (by rw [he, hrid])
        rw [this] at hconf
        rw [hconf] at hrconf
        cases hrconf
      have hmem2 : m ∈ applySelect tid rows := by
        unfold applySelect
        have : (fun x : MatchedRow =>
            if x.id = tid then { x with is_selected := true } else x) m = m :=
          if_neg hmne
        rw [← this]
        exact List.mem_map_of_mem _ hm
      exact ih _ hnd2 m hmem2 hconf

/-- After delete + insert, no project spec item has a selected unconfirmed
row. -/
theorem insert_base_count (pid : ℕ) (st : DBState) (s : ℕ)
    (hs : s ∈ projectSpecIds pid st) :
    selectedUnconfirmedCount s
      ((runInsertPhase pid (runDeletePhase pid st)).matchedItems) = 0 := by
  unfold selectedUnconfirmedCount
  rw [List.countP_eq_zero]
  intro m hm hp
  rw [Bool.and_eq_true, Bool.and_eq_true] at hp
  obtain ⟨⟨hspec, hsel⟩, hconf⟩ := hp
  have hspec' : m.specification_item_id = s := by simpa using hspec
  have hconf' : m.is_confirmed = false := by simpa using hconf
  unfold runInsertPhase at hm
  simp only at hm
  rcases List.mem_append.mp hm with hold | hnew
  · unfold runDeletePhase at hold
    simp only at hold
    rw [List.mem_filter] at hold
    obtain ⟨-, hkeep⟩ := hold
    have hproj : (projectSpecIds pid (runDeletePhase pid st)) =
        projectSpecIds pid st := rfl
    rw [Bool.not_eq_true', Bool.and_eq_false_iff] at hkeep
    rcases hkeep with h' | h'
    · simp [hconf'] at h'
    · have hcont : (projectSpecIds pid (runDeletePhase pid st)).contains
          m.specification_item_id = false := h'
      rw [hproj, hspec'] at hcont
      have hnot : s ∉ projectSpecIds pid st := by simpa using hcont
      exact hnot hs
  · rw [List.mem_map] at hnew
    obtain ⟨p, -, hp⟩ := hnew
    rw [← hp] at hsel
    simp at hsel

/-- The matched-items id column stays duplicate-free through delete +
insert, given fresh rowids. -/
theorem insert_ids_nodup (pid : ℕ) (st : DBState)
    (hnd : (st.matchedItems.map fun r => r.id).Nodup)
    (hfresh : ∀ m ∈ st.matchedItems, m.id < st.nextMatchedId) :
    (((runInsertPhase pid (runDeletePhase pid st)).matchedItems).map
      fun r => r.id).Nodup := by
  unfold runInsertPhase
  simp only [List.map_append]
  rw [List.nodup_append]
  have hdel : (runDeletePhase pid st).matchedItems =
      st.matchedItems.filter (fun m =>
        !(!m.is_confirmed &&
          (projectSpecIds pid st).contains m.specification_item_id)) := rfl
  have hnextEq : (runDeletePhase pid st).nextMatchedId = st.nextMatchedId :=
    rfl
  refine ⟨?_, ?_, ?_⟩
  · rw [hdel]
    exact hnd.sublist ((List.filter_sublist _).map _)
  · rw [List.map_map]
    have hcomp : ((fun r : MatchedRow => r.id) ∘
        (fun p : ℕ × MatchCandidate =>
          ({ id := (runDeletePhase pid st).nextMatchedId + p.1
             specification_item_id := p.2.specItemId
             invoice_item_id := p.2.invoiceItemId
             confidence := p.2.confidence
             match_type := matchTypeStr p.2.matchType
             is_confirmed := false
             is_selected := false } : MatchedRow))) =
        (fun n => (runDeletePhase pid st).nextMatchedId + n) ∘ Prod.fst := rfl
    rw [hcomp, ← List.map_map, List.enum_map_fst]
    exact (List.nodup_range _).map fun a b => by omega
  · intro a ha hb
    rw [List.mem_map] at ha
    obtain ⟨m, hm, rfl⟩ := ha
    rw [hdel, List.mem_filter] at hm
    have hlt : m.id < st.nextMatchedId := hfresh m hm.1
    rw [List.mem_map] at hb
    obtain ⟨row, hrow, hrid⟩ := hb
    rw [List.mem_map] at hrow
    obtain ⟨p, -, hp⟩ := hrow
    rw [← hp] at hrid
    have heq : st.nextMatchedId + p.1 = m.id := by
      rw [← hnextEq]; exact hrid
    omega

/-- Counterexample to C4 as stated: in a one-spec-item project, running the
matching, confirming the produced candidate, and running the matching again
leaves TWO rows with the selected flag for spec item 1 — the confirmed old
row and the freshly auto-selected new one. -/
theorem twoSelected_after_confirm_run :
    selectedCount 1
      (runOp 1 (confirmMatch .exact 100 (runOp 1 st0))).matchedItems = 2 := by
  with_unfolding_all rfl

/--
C4 (amended).  Selection invariants the code actually maintains: confirm and
confirm-analog (same route shape), manual select, and manual match each
leave exactly one selected candidate for the affected spec item and change
no other spec item's selected count; a matching run leaves at most one
selected *unconfirmed* candidate per project spec item and does not touch
confirmed rows — but it does not deselect a previously selected confirmed
candidate, so one confirmed selected row and one auto-selected row may
coexist.
-/
theorem selection_invariants (st : DBState)
    (hnd : (st.matchedItems.map fun r => r.id).Nodup)
    (hfresh : ∀ m ∈ st.matchedItems, m.id < st.nextMatchedId) :
    (∀ (kind : ConfirmKind) (mid : ℕ) (m : MatchedRow) (sp : SpecItemDbRow)
      (iv : InvoiceItemDbRow),
      st.matchedItems.find? (fun x => x.id == mid) = some m →
      st.specItems.find?
        (fun x => x.row.id == m.specification_item_id) = some sp →
      st.invoiceItems.find?
        (fun x => x.row.id == m.invoice_item_id) = some iv →
      selectedCount m.specification_item_id
        (confirmMatch kind mid st).matchedItems = 1 ∧
      ∀ s, s ≠ m.specification_item_id →
        selectedCount s (confirmMatch kind mid st).matchedItems =
        selectedCount s st.matchedItems) ∧
    (∀ (mid : ℕ) (m : MatchedRow),
      st.matchedItems.find? (fun x => x.id == mid) = some m →
      selectedCount m.specification_item_id
        (selectMatch mid st).matchedItems = 1 ∧
      ∀ s, s ≠ m.specification_item_id →
        selectedCount s (selectMatch mid st).matchedItems =
        selectedCount s st.matchedItems) ∧
    (∀ (pid sid iid : ℕ) (sp : SpecItemDbRow) (iv : InvoiceItemDbRow),
      st.specItems.find?
        (fun x => x.row.id == sid && x.projectId == pid) = some sp →
      st.invoiceItems.find?
        (fun x => x.row.id == iid && x.projectId == pid) = some iv →
      selectedCount sid (manualMatch pid sid iid st).matchedItems = 1 ∧
      ∀ s, s ≠ sid →
        selectedCount s (manualMatch pid sid iid st).matchedItems =
        selectedCount s st.matchedItems) ∧
    (∀ pid : ℕ,
      (∀ s ∈ projectSpecIds pid st,
        selectedUnconfirmedCount s (runOp pid st).matchedItems ≤ 1) ∧
      (∀ m ∈ st.matchedItems, m.is_confirmed = true →
        m ∈ (runOp pid st).matchedItems)) := by
  refine ⟨?_, ?_, ?_, ?_⟩
  · intro kind mid m sp iv hfind hsp hiv
    have hm := List.mem_of_find?_eq_some hfind
    have hmid : m.id = mid := by simpa using List.find?_some hfind
    unfold confirmMatch
    rw [hfind]
    dsimp only
    rw [hsp, hiv]
    dsimp only
    exact deselect_select_count st.matchedItems mid m.specification_item_id
      (fun x => { x with is_confirmed := true, is_selected := true })
      (fun x => rfl) (fun x => rfl) hnd m hm hmid rfl
  · intro mid m hfind
    have hm := List.mem_of_find?_eq_some hfind
    have hmid : m.id = mid := by simpa using List.find?_some hfind
    unfold selectMatch
    rw [hfind]
    dsimp only
    exact deselect_select_count st.matchedItems mid m.specification_item_id
      (fun x => { x with is_selected := true })
      (fun x => rfl) (fun x => rfl) hnd m hm hmid rfl
  · intro pid sid iid sp iv hsp hiv
    unfold manualMatch
    rw [hsp, hiv]
    dsimp only
    cases hex : st.matchedItems.find? (fun x =>
        x.specification_item_id == sid && x.invoice_item_id == iid) with
    | some existing =>
      dsimp only
      have hm := List.mem_of_find?_eq_some hex
      have hpred := List.find?_some hex
      rw [Bool.and_eq_true] at hpred
      have hespec : existing.specification_item_id = sid := by
        simpa using hpred.1
      exact deselect_select_count st.matchedItems existing.id sid
        (fun x => { x with is_confirmed := true, is_selected := true })
        (fun x => rfl) (fun x => rfl) hnd existing hm rfl hespec
    | none =>
      dsimp only
      constructor
      · unfold selectedCount
        rw [List.countP_append, List.countP_map]
        have hz : st.matchedItems.countP
            ((fun r : MatchedRow =>
              (r.specification_item_id == sid && r.is_selected : Bool)) ∘
              fun x => if x.specification_item_id = sid then
                { x with is_selected := false } else x) = 0 := by
          rw [List.countP_eq_zero]
          intro x _ hp
          simp only [Function.comp] at hp
          by_cases hxs : x.specification_item_id = sid
          · rw [if_pos hxs] at hp
            simp at hp
          · rw [if_neg hxs] at hp
            simp [hxs] at hp
        rw [hz]
        simp
      · intro s hsne
        unfold selectedCount
        rw [List.countP_append, List.countP_map]
        have hlast : ∀ x : MatchedRow, x.specification_item_id = sid →
            List.countP (fun r =>
              (r.specification_item_id == s && r.is_selected : Bool)) [x]
              = 0 := by
          intro x hx
          simp [hx, Ne.symm hsne]
        rw [hlast _ rfl, Nat.add_zero]
        apply List.countP_congr
        intro x _
        simp only [Function.comp]
        by_cases hxs : x.specification_item_id = sid
        · rw [if_pos hxs]
          simp [hxs, Ne.symm hsne]
        · rw [if_neg hxs]
  · intro pid
    constructor
    · intro s hs
      have hb := selectPhase_count
        (dedupFirst ((runCandidates pid (runDeletePhase pid st)).map
          fun c => c.specItemId))
        ((runInsertPhase pid (runDeletePhase pid st)).matchedItems)
        (insert_ids_nodup pid st hnd hfresh) (dedupFirst_nodup _) s
      rw [insert_base_count pid st s hs] at hb
      refine le_trans hb ?_
      split_ifs <;> omega
    · intro m hm hconf
      have hmem1 : m ∈ (runDeletePhase pid st).matchedItems := by
        rw [show (runDeletePhase pid st).matchedItems =
          st.matchedItems.filter (fun m =>
            !(!m.is_confirmed && (projectSpecIds pid st).contains
              m.specification_item_id)) from rfl]
        rw [List.mem_filter]
        exact ⟨hm, by simp [hconf]⟩
      have hmem2 : m ∈ (runInsertPhase pid
          (runDeletePhase pid st)).matchedItems :=
        List.mem_append_left _ hmem1
      exact selectPhase_preserves_confirmed _ _
        (insert_ids_nodup pid st hnd hfresh) m hmem2 hconf

/-- Witness for the amended C4: confirming the stale match in the concrete
store leaves exactly one selected row for spec item 1. -/
theorem selection_invariants_witness :
    selectedCount 1 (confirmMatch .exact 100 stOld).matchedItems = 1 :=
  (((selection_invariants stOld (by with_unfolding_all decide)
      (by with_unfolding_all decide)).1 .exact 100
      ⟨100, 1, 10, 0.95, str "exact_article", false, true⟩
      ⟨1, spA⟩ ⟨1, none, ivA⟩
      (by with_unfolding_all rfl) (by with_unfolding_all rfl)
      (by with_unfolding_all rfl))).1

/--
C5 (code bug).  The matching run is the composition of three store passes —
the stale-candidate `DELETE`, the insert loop (the only part wrapped in
`db.transaction`), and the per-spec auto-select `UPDATE`s — so an
interruption after the delete leaves a store that holds neither the old
candidate set nor the new one: on the concrete store with one stale
unconfirmed candidate, the post-delete candidate table is empty while both
the original and the completed-run tables hold one row.
-/
theorem matchingRun_not_atomic :
    (∀ (pid : ℕ) (st : DBState), runOp pid st =
      { runInsertPhase pid (runDeletePhase pid st) with
        matchedItems := selectPhase
          (dedupFirst ((runCandidates pid (runDeletePhase pid st)).map
            fun c => c.specItemId))
          (runInsertPhase pid (runDeletePhase pid st)).matchedItems }) ∧
    (runDeletePhase 1 stOld).matchedItems = [] ∧
    stOld.matchedItems.length = 1 ∧
    (runOp 1 stOld).matchedItems.length = 1 := by
  refine ⟨fun pid st => rfl, by with_unfolding_all rfl,
    by with_unfolding_all rfl, by with_unfolding_all rfl⟩

end Budget
